import Mathlib

/-!
Verification of the LLM Mafia game engine (`src/game.py`, `src/player.py`,
`src/parsing.py`) against its natural-language specification.

Texts are modelled as `List Char` (the sequence of Unicode code points of a
Python `str`).  Python string primitives used by the source (`str.lower`,
`str.strip`, `str.split('\n')`, substring search, …) are given explicit
executable models below, and each game-engine function is translated
definition-by-definition from the Python source.
-/

set_option maxHeartbeats 1000000

/-- Model of a Python `str`: its sequence of characters. -/
abbrev Str := List Char

/-- Characters treated as whitespace by Python's `str.strip()` / regex `\s`
(ASCII subset; the source never manipulates non-ASCII whitespace). -/
def pySpace (c : Char) : Bool :=
  c = ' ' || c = '\t' || c = '\n' || c = '\r' || c = '\x0b' || c = '\x0c'

/-- Model of Python `str.lower` (character-wise; ASCII letters plus the one
non-ASCII letter appearing in the source's patterns, `Ó` of `ACCIÓN:`). -/
def lowerChar (c : Char) : Char :=
  if 'A' ≤ c ∧ c ≤ 'Z' then Char.ofNat (c.toNat + 32)
  else if c = 'Ó' then 'ó' else c

def lowerStr (s : Str) : Str := s.map lowerChar

/-- `leadsWith pre s` models Python `s.startswith(pre)`. -/
def leadsWith : Str → Str → Bool
  | [], _ => true
  | _ :: _, [] => false
  | p :: ps, c :: cs => p = c && leadsWith ps cs

/-- `containsSub n s` models Python `n in s` (substring containment). -/
def containsSub (n : Str) : Str → Bool
  | [] => leadsWith n []
  | c :: cs => leadsWith n (c :: cs) || containsSub n cs

/-- Left strip by a character class (Python `str.lstrip`). -/
def stripLeft (p : Char → Bool) (s : Str) : Str := s.dropWhile p

/-- Right strip by a character class (Python `str.rstrip`). -/
def stripRight (p : Char → Bool) (s : Str) : Str := (s.reverse.dropWhile p).reverse

/-- Model of Python `str.strip()`. -/
def pyStrip (s : Str) : Str := stripRight pySpace (stripLeft pySpace s)

/-- Model of Python `s.split('\n')`. -/
def splitNl : Str → List Str
  | [] => [[]]
  | c :: cs =>
    if c = '\n' then [] :: splitNl cs
    else
      match splitNl cs with
      | [] => [[c]]
      | l :: ls => (c :: l) :: ls

/-- Model of Python `'\n'.join(lines)`. -/
def joinNl : List Str → Str
  | [] => []
  | [l] => l
  | l :: ls => l ++ '\n' :: joinNl ls

/-- Model of Python `' '.join(parts)`. -/
def joinSpace : List Str → Str
  | [] => []
  | [l] => l
  | l :: ls => l ++ ' ' :: joinSpace ls

theorem splitNl_ne_nil (s : Str) : splitNl s ≠ [] := by
  cases s with
  | nil => simp [splitNl]
  | cons c cs =>
    simp only [splitNl]
    split
    · simp
    · cases h : splitNl cs <;> simp

theorem mem_splitNl_no_newline (s : Str) : ∀ l ∈ splitNl s, '\n' ∉ l := by
  induction s with
  | nil => intro l hl; simp [splitNl] at hl; simp [hl]
  | cons c cs ih =>
    intro l hl
    simp only [splitNl] at hl
    by_cases hc : c = '\n'
    · simp [hc] at hl
      rcases hl with h | h
      · simp [h]
      · exact ih l h
    · simp [hc] at hl
      rcases h : splitNl cs with _ | ⟨t, ts⟩
      · exact absurd h (splitNl_ne_nil cs)
      · rw [h] at hl
        simp at hl
        rcases hl with h1 | h1
        · subst h1
          intro hmem
          simp at hmem
          rcases hmem with h2 | h2
          · exact hc h2.symm
          · exact ih t (by rw [h]; simp) h2
        · exact ih l (by rw [h]; simp [h1])

theorem splitNl_of_no_newline (s : Str) (h : '\n' ∉ s) : splitNl s = [s] := by
  induction s with
  | nil => rfl
  | cons c cs ih =>
    simp at h
    have hc : ¬ c = '\n' := fun hc => h.1 hc.symm
    simp only [splitNl, ih h.2, if_neg hc]

/-- First index at which `n` occurs as a substring of `s` (Python `s.find(n)`),
`none` when absent. -/
def findOccur (n : Str) : Str → Option Nat
  | [] => if leadsWith n [] then some 0 else none
  | c :: cs => if leadsWith n (c :: cs) then some 0 else (findOccur n cs).map (· + 1)

/-- First occurrence of `n` in `s` at or after index `start`. -/
def findOccurFrom (n s : Str) (start : Nat) : Option Nat :=
  (findOccur n (s.drop start)).map (· + start)

/-- Start of the second non-overlapping occurrence of `n` in `s`
(the second match of Python `re.finditer`). -/
def secondOccur (n s : Str) : Option Nat :=
  match findOccur n s with
  | none => none
  | some i => findOccurFrom n s (i + n.length)

/-- The marker phrase of `sanitize_model_response` step 2, lowercase. -/
def yrNeedle : Str := "your response".data

/-- Model of `re.sub(r'^.*your response.*$\n?', '', s, MULTILINE|IGNORECASE)`:
every line containing the marker is removed together with its trailing
newline separator. -/
def joinDropBad (bad : Str → Bool) : List Str → Str
  | [] => []
  | [l] => if bad l then [] else l
  | l :: ls => if bad l then joinDropBad bad ls else l ++ '\n' :: joinDropBad bad ls

/-- A line matching the step-2 single-occurrence deletion pattern. -/
def yrLine (l : Str) : Bool := containsSub yrNeedle (lowerStr l)

/-- Step 2 of `sanitize_model_response`: handling of the literal marker
"your response" (case-insensitive).  Two or more occurrences: keep only the
text after the line holding the second one (or after the match itself when
that line is the last).  Exactly one: delete that line. -/
def yrCut (s : Str) : Str :=
  match findOccur yrNeedle (lowerStr s) with
  | none => s
  | some _ =>
    match secondOccur yrNeedle (lowerStr s) with
    | none => joinDropBad yrLine (splitNl s)
    | some p2 =>
      match findOccurFrom ['\n'] s p2 with
      | none => s.drop (p2 + yrNeedle.length)
      | some e => s.drop (e + 1)

/-- A line matching `^\s*(?:Name1|Name2|…):` for one of the other players'
names (step 1 of `sanitize_model_response`; the regex is case-sensitive). -/
def labelLineMatch (others : List Str) (line : Str) : Bool :=
  (List.range ((line.takeWhile pySpace).length + 1)).any
    (fun i => others.any (fun n => leadsWith (n ++ [':']) (line.drop i)))

/-- Step 1 of `sanitize_model_response`: truncate strictly before the first
line on which another living player's name appears as a leading label.
(The source guards this step behind `if other_names:`; with no other names no
line can match, so the unguarded form is equivalent.) -/
def otherLabelCut (others : List Str) (s : Str) : Str :=
  let lines := splitNl s
  match lines.findIdx? (labelLineMatch others) with
  | none => s
  | some k => joinNl (lines.take k)

/-- Earliest start of an occurrence of any of `kws` (already lowercase)
in `s`, case-insensitively. -/
def firstKwPos (kws : List Str) (s : Str) : Option Nat :=
  (kws.filterMap (fun k => findOccur k (lowerStr s))).min?

/-- Steps 3a/3b of `sanitize_model_response`: `re.split(pattern, s)[0]` for
`pattern = (?i)\n?(KW1|KW2|…)[^\n]*.*` — everything from the first keyword
occurrence onward is dropped, together with an immediately preceding
newline. -/
def cutAtKw (kws : List Str) (s : Str) : Str :=
  match firstKwPos kws s with
  | none => s
  | some p =>
    if 0 < p ∧ (s.drop (p - 1)).head? = some '\n' then s.take (p - 1) else s.take p

/-- Step 4 of `sanitize_model_response`: strip, drop blank lines at both
ends, re-join, strip. -/
def step4 (s : Str) : Str :=
  let s1 := pyStrip s
  let ls1 := (splitNl s1).dropWhile (fun l => pyStrip l = [])
  let ls2 := (ls1.reverse.dropWhile (fun l => pyStrip l = [])).reverse
  pyStrip (joinNl ls2)

theorem leadsWith_length {p s : Str} (h : leadsWith p s = true) : p.length ≤ s.length := by
  induction p generalizing s with
  | nil => simp
  | cons c cs ih =>
    cases s with
    | nil => simp [leadsWith] at h
    | cons d ds =>
      simp only [leadsWith, Bool.and_eq_true] at h
      simpa using ih h.2

theorem lowerStr_length (s : Str) : (lowerStr s).length = s.length := by
  simp [lowerStr]

/-- Step 5 label loop, fuel-indexed: repeatedly strip a leading `Cur:` label
(with its following whitespace), case-insensitively.  Models the pair of
regex deletions `^((?:Cur:\s*){2,})` and `^Cur:\s*` of the source, which
together remove every leading repetition of the label.  Each iteration drops
at least one character, so fuel `s.length` reaches the loop's fixed point. -/
def labelLoopF (cur : Str) : Nat → Str → Str
  | 0, s => s
  | Nat.succ fuel, s =>
    if cur ≠ [] ∧ leadsWith (lowerStr cur ++ [':']) (lowerStr s) then
      labelLoopF cur fuel ((s.drop (cur.length + 1)).dropWhile pySpace)
    else s

def labelLoop (cur : Str) (s : Str) : Str := labelLoopF cur s.length s

/-- Step 5 of `sanitize_model_response` (skipped entirely when the speaker
name is empty, mirroring `if cur_player_name:`). -/
def stripSelfLabel (cur : Str) (s : Str) : Str :=
  if cur = [] then s else stripLeft pySpace (labelLoop cur s)

/-- Model of a regex word character (`\w`), ASCII fragment. -/
def isWordChar (c : Char) : Bool := c.isAlphanum || c = '_'

/-- A `\b` word boundary holds before the scan position, given the previous
character (`none` at the start of the text). -/
def boundaryOk : Option Char → Bool
  | none => true
  | some p => ! isWordChar p

/-- Try to match `VOTE:\s*([^\s\n]+)` (ignore-case) at the start of `s`,
returning the whole match (`group(0)`). -/
def voteTryAt (s : Str) : Option Str :=
  if leadsWith ("vote:".data) (lowerStr s) then
    let rest := s.drop 5
    let wsn := (rest.takeWhile pySpace).length
    let tok := (rest.drop wsn).takeWhile (fun c => ! pySpace c)
    if tok = [] then none else some (s.take (5 + wsn + tok.length))
  else none

def voteScanGo : Option Char → Str → Option Str
  | _, [] => none
  | prev, c :: cs =>
    match (if boundaryOk prev then voteTryAt (c :: cs) else none) with
    | some g => some g
    | none => voteScanGo (some c) cs

/-- `re.search(r'\bVOTE:\s*([^\s\n]+)', s, IGNORECASE)`, whole match. -/
def findVoteCmdS (s : Str) : Option Str := voteScanGo none s

/-- Try to match `ACTION:\s*[^\n]+` (ignore-case) at the start of `s`.
`\s*` is greedy and may span newlines; when it reaches the end of the text
the engine backtracks to let `[^\n]+` take the last non-newline whitespace
character. -/
def actionTryAt (s : Str) : Option Str :=
  if leadsWith ("action:".data) (lowerStr s) then
    let rest := s.drop 7
    let m0 := (rest.takeWhile pySpace).length
    if m0 < rest.length then
      let ln := ((rest.drop m0).takeWhile (fun c => c ≠ '\n')).length
      some (s.take (7 + m0 + ln))
    else
      let tr := (rest.reverse.takeWhile (fun c => c = '\n')).length
      if tr = rest.length then none
      else some (s.take (7 + rest.length - tr))
  else none

def actionScanGo : Option Char → Str → Option Str
  | _, [] => none
  | prev, c :: cs =>
    match (if boundaryOk prev then actionTryAt (c :: cs) else none) with
    | some g => some g
    | none => actionScanGo (some c) cs

/-- `re.search(r'\bACTION:\s*[^\n]+', s, IGNORECASE)`, whole match. -/
def findActionCmdS (s : Str) : Option Str := actionScanGo none s

/-- The first non-blank line of `s`, stripped (`first_line` of step 6;
empty when every line is blank). -/
def firstNonBlank (s : Str) : Str :=
  match (splitNl s).find? (fun l => pyStrip l ≠ []) with
  | none => []
  | some l => pyStrip l

/-- The `result_parts` list of step 6: the first meaningful line, then the
first `VOTE:` command and the first `ACTION:` command, each appended only
when not already contained (case-insensitively). -/
def step6Parts (s : Str) : List Str :=
  let vm := findVoteCmdS s
  let am := findActionCmdS s
  let fl := firstNonBlank s
  let parts1 : List Str := if fl = [] then [] else [fl]
  let parts2 : List Str :=
    match vm with
    | none => parts1
    | some g =>
      let vc := pyStrip g
      if containsSub (lowerStr vc) (lowerStr fl) then parts1 else parts1 ++ [vc]
  match am with
  | none => parts2
  | some g =>
    let ac := pyStrip g
    if containsSub (lowerStr ac) (lowerStr fl) then parts2
    else
      match vm with
      | none => parts2 ++ [ac]
      | some gv =>
        if containsSub (lowerStr ac) (lowerStr gv) then parts2 else parts2 ++ [ac]

/-- Step 6 of `sanitize_model_response`: keep the first meaningful line and
append the first `VOTE:` and `ACTION:` commands (each unless already
contained, case-insensitively), joined by single spaces and stripped. -/
def assembleStep6 (s : Str) : Str := pyStrip (joinSpace (step6Parts s))

/-- Phase names triggering the discussion keyword cut (step 3a). -/
def discussionPhases : List Str := ["discussion".data, "day_discussion".data]

/-- Keywords cut during discussion phases, lowercase
(`ACTION:|ACCIÓN:|VOTE:|PROTEGER|KILL`). -/
def kw5 : List Str :=
  ["action:".data, "acción:".data, "vote:".data, "proteger".data, "kill".data]

/-- Step 3 of `sanitize_model_response`: the phase-dependent keyword cut
(3a for the discussion phases, 3b for the night phase; note the computed
`phase_voting` flag of the source is never used, so voting and all other
phases cut nothing). -/
def phaseCut (phase s : Str) : Str :=
  if lowerStr phase ∈ discussionPhases then cutAtKw kw5 s
  else if lowerStr phase = "night".data then cutAtKw ["vote:".data] s
  else s

/-- The cleaned text handed to step 6 (steps 1–5 of the sanitizer). -/
def sanitizeCleaned (resp cur : Str) (names : List Str) (phase : Str) : Str :=
  stripSelfLabel cur
    (step4 (phaseCut phase (yrCut (otherLabelCut (names.filter (fun n => n ≠ cur)) resp))))

/-- `sanitize_model_response(response, cur_player_name, list_active_names,
phase)` from `src/parsing.py`.  A non-`str` Python argument also returns `""`
via the `isinstance` guard; in this typed model every input is a string, and
the guard's falsy-string half is the `resp = []` test. -/
def sanitize_model_response (resp cur : Str) (names : List Str) (phase : Str) : Str :=
  if resp = [] then [] else assembleStep6 (sanitizeCleaned resp cur names phase)

theorem sanitize_eq_assemble (resp cur : Str) (names : List Str) (phase : Str)
    (h : resp ≠ []) :
    sanitize_model_response resp cur names phase =
      assembleStep6 (sanitizeCleaned resp cur names phase) := by
  simp [sanitize_model_response, h]

/-! ## Roster (`src/player.py`, `src/game_templates.py`) -/

/-- Player roles (`Role` of `src/game_templates.py`). -/
inductive Role where
  | Mafia : Role
  | Doctor : Role
  | Villager : Role
deriving DecidableEq

/-- A player: visible name, role, liveness (`Player` of `src/player.py`;
`model_name`, `language` and `protected` do not influence the verified
operations and are omitted). -/
structure Player where
  player_name : Str
  role : Role
  alive : Bool
deriving DecidableEq

/-- ASCII letter (regex class `[A-Za-z]`). -/
def asciiLetter (c : Char) : Bool :=
  ('A' ≤ c && c ≤ 'Z') || ('a' ≤ c && c ≤ 'z')

/-- Regex class `[-A-Za-z]` of the English kill/protect capture. -/
def killNameChar (c : Char) : Bool := asciiLetter c || c = '-'

/-- Characters stripped from the right of a parsed night-action target
(`target_name.rstrip('.:,; \t')`). -/
def punctSet (c : Char) : Bool :=
  c = '.' || c = ':' || c = ',' || c = ';' || c = ' ' || c = '\t'

/-- Try `ACTION:\s*<Verb>\s+([A-Za-z][-A-Za-z]*)` (ignore-case) at the start
of `s`, for a given lowercase verb; returns the captured group. -/
def nightTryAt (verb : Str) (s : Str) : Option Str :=
  if leadsWith ("action:".data) (lowerStr s) then
    let r1 := s.drop 7
    let w1 := (r1.takeWhile pySpace).length
    if leadsWith verb (lowerStr (r1.drop w1)) then
      let r2 := r1.drop (w1 + verb.length)
      let w2 := (r2.takeWhile pySpace).length
      if w2 = 0 then none
      else
        let r3 := r2.drop w2
        match r3 with
        | [] => none
        | c :: _ => if asciiLetter c then some (r3.takeWhile killNameChar) else none
    else none
  else none

def nightScanGo (verb : Str) : Str → Option Str
  | [] => none
  | c :: cs =>
    match nightTryAt verb (c :: cs) with
    | some g => some g
    | none => nightScanGo verb cs

/-- `re.search` of the English Mafia pattern
`ACTION:\s*Kill\s+([A-Za-z][-A-Za-z]*)` (group 1). -/
def killScan (s : Str) : Option Str := nightScanGo ("kill".data) s

/-- `re.search` of the English Doctor pattern
`ACTION:\s*Protect\s+([A-Za-z][-A-Za-z]*)` (group 1). -/
def protectScan (s : Str) : Option Str := nightScanGo ("protect".data) s

/-- `Player.parse_night_action` of `src/player.py` (English patterns; the
localized patterns differ only in the regex literal, not in the filtering
below). -/
def parse_night_action (self : Player) (response : Str) (all_players : List Player) :
    Option (Str × Player) :=
  match self.role with
  | Role.Mafia =>
    match killScan response with
    | none => none
    | some cap =>
      let target_name := stripRight punctSet (pyStrip cap)
      (all_players.find? (fun p =>
        lowerStr p.player_name = lowerStr target_name && p.alive &&
        decide (p.role ≠ Role.Mafia) && decide (p.player_name ≠ self.player_name))).map
        (fun p => ("kill".data, p))
  | Role.Doctor =>
    match protectScan response with
    | none => none
    | some cap =>
      let target_name := stripRight punctSet (pyStrip cap)
      (all_players.find? (fun p =>
        lowerStr p.player_name = lowerStr target_name && p.alive)).map
        (fun p => ("protect".data, p))
  | Role.Villager => none

/-- Regex character class of the English vote capture: word chars (ASCII), dot, slash, dash. -/
def voteTokChar (c : Char) : Bool := isWordChar c || c = '.' || c = '/' || c = '-'

/-- The `(?:[-:]\w+)*` extension of the vote capture, fuel-indexed (each
repetition consumes at least two characters, so fuel `s.length` suffices). -/
def voteSuffixF : Nat → Str → Str
  | 0, _ => []
  | Nat.succ fuel, s =>
    match s with
    | [] => []
    | c :: rest =>
      if c = '-' || c = ':' then
        match rest.takeWhile isWordChar with
        | [] => []
        | w0 :: ws => (c :: w0 :: ws) ++ voteSuffixF fuel (rest.drop (w0 :: ws).length)
      else []

def voteSuffix (s : Str) : Str := voteSuffixF s.length s

/-- Try the English vote pattern (VOTE: then optional whitespace, then a
run of vote-token chars extended by colon-separated word runs), ignore-case,
at the start of `s`; returns the captured group. -/
def pvoteTryAt (s : Str) : Option Str :=
  if leadsWith ("vote:".data) (lowerStr s) then
    let r1 := s.drop 5
    let w1 := (r1.takeWhile pySpace).length
    let first := (r1.drop w1).takeWhile voteTokChar
    if first = [] then none
    else some (first ++ voteSuffix ((r1.drop w1).drop first.length))
  else none

def pvoteScanGo : Str → Option Str
  | [] => none
  | c :: cs =>
    match pvoteTryAt (c :: cs) with
    | some g => some g
    | none => pvoteScanGo cs

/-- `re.search` of the English vote pattern of `VOTE_PATTERNS` in
`src/game_templates.py` (group 1). -/
def pvoteScan (s : Str) : Option Str := pvoteScanGo s

/-- `Player.parse_day_vote` of `src/player.py` (English pattern). -/
def parse_day_vote (self : Player) (response : Str) (all_players : List Player) :
    Option Player :=
  match pvoteScan response with
  | none => none
  | some cap =>
    let target_name_raw := pyStrip cap
    all_players.find? (fun p =>
      lowerStr p.player_name = lowerStr target_name_raw &&
      decide (p.player_name ≠ self.player_name) && p.alive)

/-! ## Game engine (`src/game.py`) -/

/-- `MafiaGame.check_game_over`: outcome from the live role counts and the
round number; `config.MAX_ROUNDS` is passed explicitly (its default is 20). -/
def check_game_over (mafia_alive villagers_alive doctor_alive round_number max_rounds : Nat) :
    Bool × Option Str :=
  if mafia_alive = 0 then (true, some ("Villagers".data))
  else if villagers_alive + doctor_alive ≤ mafia_alive then (true, some ("Mafia".data))
  else if max_rounds ≤ round_number then
    if mafia_alive < villagers_alive + doctor_alive then (true, some ("Villagers".data))
    else (true, some ("Mafia".data))
  else (false, none)

/-- `check_game_over` exactly as claim C3 words it: Villagers on zero Mafia;
else Mafia on `mafia ≥ villagers + doctor`; else, at `MAX_ROUNDS`, force the
decision with the same numeric comparison; else the game is not over. -/
def check_game_over_claim (m v d r maxR : Nat) : Bool × Option Str :=
  if m = 0 then (true, some ("Villagers".data))
  else if m ≥ v + d then (true, some ("Mafia".data))
  else if r ≥ maxR then
    if m ≥ v + d then (true, some ("Mafia".data)) else (true, some ("Villagers".data))
  else (false, none)

/-- Replies the engine accepts as agreement in `get_confirmation_vote`
(`vote.lower() in ["agree", "yes", "confirm", "true"]`). -/
def agreeWords : List Str := ["agree".data, "yes".data, "confirm".data, "true".data]

/-- `MafiaGame.get_confirmation_vote`: poll every living player other than
the accused; `cvote` gives each voter's reply (the string returned by
`Player.get_confirmation_vote`).  Returns `(is_confirmed, agree_names,
disagree_names)`.  The source compares `len(agree) > len(voting_players)/2`
with float division — exact for every feasible length — modelled as
`voting_players.length < 2 * agree.length`; object identity of the accused
is modelled by name (player names are unique per game). -/
def get_confirmation_vote (alive_players : List Player) (accused : Player)
    (cvote : Str → Str) : Bool × List Str × List Str :=
  let voting_players := alive_players.filter (fun p => p.player_name ≠ accused.player_name)
  let agree := voting_players.filter (fun p => lowerStr (cvote p.player_name) ∈ agreeWords)
  let disagree := voting_players.filter (fun p => lowerStr (cvote p.player_name) ∉ agreeWords)
  (voting_players.length < 2 * agree.length,
    agree.map (fun p => p.player_name), disagree.map (fun p => p.player_name))

/-- One step of Python's `dict` counting loop `target_counts[t] += 1`:
an insertion-ordered association list. -/
def bumpCount (ts : List (Str × Nat)) (k : Str) : List (Str × Nat) :=
  match ts with
  | [] => [(k, 1)]
  | (n, c) :: r => if n = k then (n, c + 1) :: r else (n, c) :: bumpCount r k

/-- The vote-counting dicts of `execute_night_phase` (`target_counts`) and
`execute_day_phase` (`vote_counts`): keys in first-vote order, each with its
multiplicity. -/
def countVotes (targets : List Str) : List (Str × Nat) := targets.foldl bumpCount []

/-- The plurality scan of `execute_day_phase` (lines 515–524): iterate the
counts dict, tracking the strictly increasing maximum, resolving each new
winner name among the living players (keeping the old winner when the name
resolves to no one). -/
def dayMaxScan (alive_players : List Player) :
    List (Str × Nat) → Nat → Option Player → Option Player
  | [], _, win => win
  | (n, c) :: r, maxv, win =>
    if maxv < c then
      dayMaxScan alive_players r c
        ((alive_players.find? (fun p => p.player_name = n)).orElse (fun _ => win))
    else dayMaxScan alive_players r maxv win

/-- The kill-target scan of `execute_night_phase` (lines 344–353), textually
the same algorithm as the day scan. -/
def nightMaxScan (alive_players : List Player) :
    List (Str × Nat) → Nat → Option Player → Option Player
  | [], _, kill => kill
  | (n, c) :: r, maxv, kill =>
    if maxv < c then
      nightMaxScan alive_players r c
        ((alive_players.find? (fun p => p.player_name = n)).orElse (fun _ => kill))
    else nightMaxScan alive_players r maxv kill

/-- Kill-target resolution of `execute_night_phase` from the valid Mafia
kill-target names (in Mafia iteration order). -/
def execute_night_kill_choice (alive_players : List Player) (mafia_targets : List Str) :
    Option Player :=
  if mafia_targets = [] then none
  else nightMaxScan alive_players (countVotes mafia_targets) 0 none

/-- Plurality selection of `execute_day_phase` from the `votes` mapping
(voter name, target name) in voter order. -/
def execute_day_vote_choice (alive_players : List Player) (votes : List (Str × Str)) :
    Option Player :=
  dayMaxScan alive_players (countVotes (votes.map (fun v => v.2))) 0 none

/-- `execute_day_phase`, reduced to its elimination decision: names
eliminated by vote — empty when there is no plurality target or the
confirmation poll rejects. -/
def execute_day_phase_eliminations (alive_players : List Player)
    (votes : List (Str × Str)) (cvote : Str → Str) : List Str :=
  match execute_day_vote_choice alive_players votes with
  | none => []
  | some accused =>
    if (get_confirmation_vote alive_players accused cvote).1 then [accused.player_name]
    else []

/-- The day-voting pass of `_conduct_player_interactions`
(`collect_votes=True`): for each living player in seat order, sanitize the
raw reply (`responses`, keyed by player name); when the sanitized text is
empty the player is skipped entirely (`continue`); otherwise parse the vote
and, when it is missing, a self-vote, or a dead target, fall back to
`choice` over the other living players (`random.choice`).  Returns the
`votes` mapping in voter order. -/
def day_vote_of_player (alive_players : List Player) (responses : Str → Str)
    (choice : List Player → Player) (player : Player) : Option (Str × Str) :=
  let active_names := alive_players.map (fun p => p.player_name)
  let sanitized := sanitize_model_response (responses player.player_name)
    player.player_name active_names ("day_voting".data)
  if sanitized = [] then none
  else
    let vt0 := parse_day_vote player sanitized alive_players
    let invalid :=
      match vt0 with
      | none => true
      | some t => t.player_name = player.player_name || ! t.alive
    let vt : Option Player :=
      if invalid then
        let possible := alive_players.filter (fun p => p.player_name ≠ player.player_name)
        if possible = [] then none else some (choice possible)
      else vt0
    vt.map (fun t => (player.player_name, t.player_name))

def conduct_day_voting (alive_players : List Player) (responses : Str → Str)
    (choice : List Player → Player) : List (Str × Str) :=
  alive_players.filterMap (day_vote_of_player alive_players responses choice)

/-- Abstract game-loop state: exactly the values `run_game`'s win check
reads. -/
structure GState where
  mafia_alive : Nat
  villagers_alive : Nat
  doctor_alive : Nat
  round_number : Nat
deriving DecidableEq

/-- An acting phase executed by the main loop. -/
inductive PhaseEvt where
  | night : PhaseEvt
  | day : PhaseEvt
deriving DecidableEq

/-- The win check as invoked from the loop. -/
def gcheck (s : GState) (maxR : Nat) : Bool × Option Str :=
  check_game_over s.mafia_alive s.villagers_alive s.doctor_alive s.round_number maxR

/-- The main loop of `run_game` after `setup_game` (lines 881–896):
win check, `execute_day_phase`, win check, `execute_night_phase`, repeat.
`stepD`/`stepN` abstract the two phase bodies as state transformers; the
result records the acting phases actually executed, in order.  `fuel` bounds
the observation (the Python loop runs unboundedly until a check succeeds). -/
def run_game_phases (fuel : Nat) (s : GState) (stepD stepN : GState → GState)
    (maxR : Nat) : List PhaseEvt :=
  match fuel with
  | 0 => []
  | Nat.succ fuel' =>
    if (gcheck s maxR).1 then []
    else
      PhaseEvt.day ::
        (if (gcheck (stepD s) maxR).1 then []
         else PhaseEvt.night :: run_game_phases fuel' (stepN (stepD s)) stepD stepN maxR)

/-! ## Claim C3 and claim C10: the win check -/

/-- C3: the win check returns `(True, "Villagers")` when no Mafia lives;
otherwise `(True, "Mafia")` when living Mafia ≥ living villagers + doctor;
otherwise, once `round_number` reaches `MAX_ROUNDS`, it forces a decision by
the same numeric comparison rather than any new rule; otherwise the game is
not over.  Stated as: the source function coincides with the function built
from the claim's own wording. -/
theorem check_game_over_matches_claim_spec (m v d r maxR : Nat) :
    check_game_over m v d r maxR = check_game_over_claim m v d r maxR := by
  unfold check_game_over check_game_over_claim
  split_ifs <;> first | rfl | omega

/-- C10: whenever the win check terminates a game through the `MAX_ROUNDS`
draw-breaker branch (living Mafia nonzero and strictly fewer than living
villagers plus doctor, round at the cap), the declared winner is always
"Villagers": the "Mafia" sub-branch of the draw-breaker is unreachable. -/
theorem draw_breaker_always_villagers (m v d r maxR : Nat)
    (hm : m ≠ 0) (hlt : m < v + d) (hr : maxR ≤ r) :
    check_game_over m v d r maxR = (true, some ("Villagers".data)) := by
  unfold check_game_over
  rw [if_neg hm, if_neg (by omega), if_pos hr, if_pos hlt]

theorem draw_breaker_always_villagers_witness :
    (1 : Nat) ≠ 0 ∧ (1 : Nat) < 2 + 0 ∧ (20 : Nat) ≤ 20 ∧
      check_game_over 1 2 0 20 20 = (true, some ("Villagers".data)) :=
  ⟨by decide, by decide, by decide,
    draw_breaker_always_villagers 1 2 0 20 20 (by decide) (by decide) (by decide)⟩

/-! ## Claim C8: the sanitizer never fails -/

/-- C8: the sanitizer is a total function — in this typed model every call
returns a string, mirroring the source's no-exception contract — and the
empty input yields the empty string for every speaker name, names list and
phase (the `if not response or not isinstance(response, str)` guard; a
non-`str` Python input takes the same guard and is outside a typed model's
input space). -/
theorem sanitize_empty_input_and_totality (cur : Str) (names : List Str) (phase : Str) :
    sanitize_model_response [] cur names phase = [] := by
  simp [sanitize_model_response]

/-! ## Claim C1: the phase order of the game loop -/

/-- C1 counterexample: with a standard role distribution (2 Mafia,
5 villagers, 1 doctor, round 1) the first acting phase executed by
`run_game`'s loop after setup is the **day** phase, not the night phase
claimed. -/
theorem run_game_first_phase_day_counterexample :
    (run_game_phases 5 ⟨2, 5, 1, 1⟩ id id 20).head? = some PhaseEvt.day ∧
      (run_game_phases 5 ⟨2, 5, 1, 1⟩ id id 20).head? ≠ some PhaseEvt.night := by
  constructor
  · decide
  · decide

/-- C1 amended: after setup the engine alternates day then night — the
phases executed are day, night, day, night, … — with the win-condition
check evaluated before the very first day phase and again after every
phase, until a check reports the game over. -/
theorem run_game_phases_alternate_day_night (fuel : Nat) (s : GState)
    (stepD stepN : GState → GState) (maxR : Nat) (i : Nat)
    (hi : i < (run_game_phases fuel s stepD stepN maxR).length) :
    (run_game_phases fuel s stepD stepN maxR).get? i =
      some (if i % 2 = 0 then PhaseEvt.day else PhaseEvt.night) := by
  induction fuel generalizing s i with
  | zero => simp [run_game_phases] at hi
  | succ fuel ih =>
    unfold run_game_phases at hi ⊢
    by_cases h0 : (gcheck s maxR).1 = true
    · rw [if_pos h0] at hi; simp at hi
    · rw [if_neg h0] at hi ⊢
      by_cases h1 : (gcheck (stepD s) maxR).1 = true
      · rw [if_pos h1] at hi ⊢
        match i with
        | 0 => rfl
        | Nat.succ j => simp at hi
      · rw [if_neg h1] at hi ⊢
        match i with
        | 0 => rfl
        | 1 => rfl
        | Nat.succ (Nat.succ k) =>
          have hk : k < (run_game_phases fuel (stepN (stepD s)) stepD stepN maxR).length := by
            simp at hi
            omega
          have hrec := ih (stepN (stepD s)) k hk
          simp only [List.get?_cons_succ]
          rw [hrec]
          have hmod : (k + 2) % 2 = k % 2 := by omega
          rw [hmod]

theorem run_game_phases_alternate_day_night_witness :
    2 < (run_game_phases 5 (GState.mk 2 5 1 1) id id 20).length ∧
      (run_game_phases 5 (GState.mk 2 5 1 1) id id 20).get? 2 = some PhaseEvt.day := by
  constructor
  · decide
  · have := run_game_phases_alternate_day_night 5 (GState.mk 2 5 1 1) id id 20 2 (by decide)
    simpa using this

/-! ## Claim C4: the confirmation poll -/

theorem gcv_fst_iff (alive_players : List Player) (accused : Player) (cvote : Str → Str) :
    ((get_confirmation_vote alive_players accused cvote).1 = true ↔
      (alive_players.filter (fun p => p.player_name ≠ accused.player_name)).length <
        2 * ((alive_players.filter (fun p => p.player_name ≠ accused.player_name)).filter
              (fun p => lowerStr (cvote p.player_name) ∈ agreeWords)).length) := by
  unfold get_confirmation_vote
  simp

/-- Concrete roster shared by the witness theorems below. -/
def pxAlex : Player := Player.mk ("Alex".data) Role.Villager true

def pxBailey : Player := Player.mk ("Bailey".data) Role.Villager true

def pxCasey : Player := Player.mk ("Casey".data) Role.Mafia true

def pxRoster : List Player := [pxAlex, pxBailey, pxCasey]

/-- C4: when a player reaches a day-vote plurality, a confirmation poll runs
among all living players other than the accused, and the elimination is
carried out iff the agree count doubled strictly exceeds the voting
population; an exact half is rejection and the accused is not eliminated. -/
theorem confirmation_strict_majority_controls_elimination
    (alive_players : List Player) (votes : List (Str × Str)) (cvote : Str → Str)
    (accused : Player)
    (hacc : execute_day_vote_choice alive_players votes = some accused) :
    (execute_day_phase_eliminations alive_players votes cvote = [accused.player_name] ↔
      (alive_players.filter (fun p => p.player_name ≠ accused.player_name)).length <
        2 * ((alive_players.filter (fun p => p.player_name ≠ accused.player_name)).filter
              (fun p => lowerStr (cvote p.player_name) ∈ agreeWords)).length) ∧
    (2 * ((alive_players.filter (fun p => p.player_name ≠ accused.player_name)).filter
          (fun p => lowerStr (cvote p.player_name) ∈ agreeWords)).length =
        (alive_players.filter (fun p => p.player_name ≠ accused.player_name)).length →
      execute_day_phase_eliminations alive_players votes cvote = []) := by
  have hiff := gcv_fst_iff alive_players accused cvote
  unfold execute_day_phase_eliminations
  rw [hacc]
  dsimp only
  by_cases hc : (get_confirmation_vote alive_players accused cvote).1 = true
  · rw [if_pos hc]
    exact ⟨⟨fun _ => hiff.mp hc, fun _ => rfl⟩,
      fun heq => absurd (hiff.mp hc) (by omega)⟩
  · rw [if_neg hc]
    exact ⟨⟨fun habs => absurd habs (by simp), fun hlt => absurd (hiff.mpr hlt) hc⟩,
      fun _ => rfl⟩

/-- Day votes used by the C4 witness. -/
def cvVotes : List (Str × Str) :=
  [("Alex".data, "Casey".data), ("Bailey".data, "Casey".data)]

theorem confirmation_strict_majority_controls_elimination_witness :
    execute_day_vote_choice pxRoster cvVotes = some pxCasey ∧
      execute_day_phase_eliminations pxRoster cvVotes (fun _ => "agree".data) =
        ["Casey".data] := by
  have h := confirmation_strict_majority_controls_elimination pxRoster cvVotes
    (fun _ => "agree".data) pxCasey (by decide)
  exact ⟨by decide, h.1.mpr (by decide)⟩

/-! ## Claim C5: plurality selection and its tie-break -/

/-- Maximum count occurring in a counts list. -/
def maxCnt (cs : List (Str × Nat)) : Nat := cs.foldr (fun e m => max e.2 m) 0

/-- Characterization of the Python counting dict: candidates listed in the
order each received its first vote, with total multiplicities. -/
def tmodel : List Str → List (Str × Nat)
  | [] => []
  | v :: r => (v, 1 + r.count v) :: tmodel (r.filter (fun x => x ≠ v))
termination_by vs => vs.length
decreasing_by
  simp only [List.length_cons]
  exact Nat.lt_succ_of_le (List.length_filter_le _ _)

theorem nightMaxScan_eq_dayMaxScan (alive : List Player) (cs : List (Str × Nat))
    (maxv : Nat) (win : Option Player) :
    nightMaxScan alive cs maxv win = dayMaxScan alive cs maxv win := by
  induction cs generalizing maxv win with
  | nil => rfl
  | cons e r ih =>
    obtain ⟨n, c⟩ := e
    unfold nightMaxScan dayMaxScan
    by_cases h : maxv < c
    · rw [if_pos h, if_pos h, ih]
    · rw [if_neg h, if_neg h, ih]

theorem tmodel_nil : tmodel [] = [] := by rw [tmodel]

theorem tmodel_cons (v : Str) (r : List Str) :
    tmodel (v :: r) = (v, 1 + r.count v) :: tmodel (r.filter (fun x => x ≠ v)) := by
  rw [tmodel]

theorem bump_tmodel (v : Str) : ∀ hs : List Str, bumpCount (tmodel hs) v = tmodel (hs ++ [v]) := by
  intro hs
  induction hs using tmodel.induct with
  | case1 =>
    rw [tmodel_nil, show ([] : List Str) ++ [v] = [v] from rfl, tmodel_cons]
    simp [bumpCount, tmodel_nil]
  | case2 h t ih =>
    rw [tmodel_cons, show (h :: t) ++ [v] = h :: (t ++ [v]) from rfl, tmodel_cons]
    by_cases hv : h = v
    · subst hv
      simp only [bumpCount, if_pos rfl]
      rw [List.count_append, List.filter_append]
      simp [List.count_singleton]
      omega
    · simp only [bumpCount, if_neg hv]
      rw [List.count_append, List.filter_append, ih]
      have h1 : List.count h [v] = 0 := by
        simp [List.count_singleton]
        exact fun hh => hv hh.symm
      have h2 : List.filter (fun x => decide (x ≠ h)) [v] = [v] := by
        simp
        exact fun hh => hv hh.symm
      rw [h1, h2]
      norm_num

theorem countVotes_eq_tmodel (vs : List Str) : countVotes vs = tmodel vs := by
  have key : ∀ (ws hs : List Str), List.foldl bumpCount (tmodel hs) ws = tmodel (hs ++ ws) := by
    intro ws
    induction ws with
    | nil => intro hs; simp
    | cons w r ih =>
      intro hs
      rw [List.foldl_cons, bump_tmodel w hs, ih (hs ++ [w])]
      simp
  have := key vs []
  simpa [countVotes, tmodel_nil] using this

theorem maxCnt_cons (n : Str) (c : Nat) (r : List (Str × Nat)) :
    maxCnt ((n, c) :: r) = max c (maxCnt r) := rfl

theorem le_maxCnt_of_mem {cs : List (Str × Nat)} {e : Str × Nat} (h : e ∈ cs) :
    e.2 ≤ maxCnt cs := by
  induction cs with
  | nil => simp at h
  | cons f r ih =>
    obtain ⟨n, c⟩ := f
    rw [maxCnt_cons]
    rcases List.mem_cons.mp h with h1 | h1
    · subst h1; exact le_max_left _ _
    · exact le_trans (ih h1) (le_max_right _ _)

theorem dayMaxScan_flush (alive : List Player) (cs : List (Str × Nat)) (maxv : Nat)
    (win : Option Player) (h : ∀ e ∈ cs, e.2 ≤ maxv) :
    dayMaxScan alive cs maxv win = win := by
  induction cs generalizing maxv win with
  | nil => rfl
  | cons f r ih =>
    obtain ⟨n, c⟩ := f
    unfold dayMaxScan
    rw [if_neg (by have := h (n, c) (List.mem_cons_self _ _); simp at this ⊢; omega)]
    exact ih maxv win (fun e he => h e (List.mem_cons_of_mem _ he))

theorem dayMaxScan_max (alive : List Player) (cs : List (Str × Nat)) :
    ∀ (maxv : Nat) (win : Option Player), maxv < maxCnt cs →
    (∀ e ∈ cs, e.2 = maxCnt cs → (alive.find? (fun p => p.player_name = e.1)).isSome = true) →
    dayMaxScan alive cs maxv win =
      (cs.find? (fun e => e.2 = maxCnt cs)).bind
        (fun e => alive.find? (fun p => p.player_name = e.1)) := by
  induction cs with
  | nil => intro maxv win hmax _; simp [maxCnt] at hmax
  | cons f r ih =>
    intro maxv win hmax hres
    obtain ⟨n, c⟩ := f
    by_cases hcM : c = maxCnt ((n, c) :: r)
    · have hM : maxv < c := by rw [hcM]; exact hmax
      unfold dayMaxScan
      rw [if_pos hM]
      have hflush : dayMaxScan alive r c
          ((alive.find? (fun p => p.player_name = n)).orElse (fun _ => win)) =
          (alive.find? (fun p => p.player_name = n)).orElse (fun _ => win) := by
        apply dayMaxScan_flush
        intro e he
        have := le_maxCnt_of_mem (List.mem_cons_of_mem (n, c) he)
        omega
      rw [hflush]
      have hsome := hres (n, c) (List.mem_cons_self _ _) hcM
      have hfind : List.find? (fun e => decide (e.2 = maxCnt ((n, c) :: r))) ((n, c) :: r) =
          some (n, c) := by
        rw [List.find?_cons_of_pos]
        simpa using hcM
      rw [hfind]
      obtain ⟨p, hp⟩ := Option.isSome_iff_exists.mp hsome
      simp [hp, Option.orElse]
    · have hle : c ≤ maxCnt ((n, c) :: r) := by
        have := le_maxCnt_of_mem (List.mem_cons_self (n, c) r)
        simpa using this
      have hcLt : c < maxCnt ((n, c) :: r) := lt_of_le_of_ne hle hcM
      have hMr : maxCnt r = maxCnt ((n, c) :: r) := by
        rw [maxCnt_cons] at hcLt ⊢
        omega
      have hfind : List.find? (fun e => decide (e.2 = maxCnt ((n, c) :: r))) ((n, c) :: r) =
          List.find? (fun e => decide (e.2 = maxCnt ((n, c) :: r))) r := by
        rw [List.find?_cons_of_neg]
        simpa using hcM
      unfold dayMaxScan
      by_cases hlt : maxv < c
      · rw [if_pos hlt, hfind, ← hMr]
        rw [ih c ((alive.find? (fun p => p.player_name = n)).orElse (fun _ => win))
          (by omega) (fun e he hm => hres e (List.mem_cons_of_mem _ he) (by rw [← hMr]; exact hm))]
      · rw [if_neg hlt, hfind, ← hMr]
        rw [ih maxv win (by omega)
          (fun e he hm => hres e (List.mem_cons_of_mem _ he) (by rw [← hMr]; exact hm))]

theorem tmodel_mem : ∀ (vs : List Str), ∀ e ∈ tmodel vs, e.1 ∈ vs := by
  intro vs
  induction vs using tmodel.induct with
  | case1 => simp [tmodel]
  | case2 h t ih =>
    intro e he
    rw [tmodel_cons] at he
    rcases List.mem_cons.mp he with h1 | h1
    · subst h1; exact List.mem_cons_self _ _
    · have := ih e h1
      exact List.mem_cons_of_mem _ (List.mem_of_mem_filter this)

/-- Tie-break as claim C5 words it: among the candidates, the first one in
iteration order over the living players whose vote count reaches the
maximum. -/
def claimRosterOrderChoice (alive : List Player) (vs : List Str) : Option Player :=
  if vs = [] then none
  else alive.find? (fun p => vs.count p.player_name = maxCnt (countVotes vs))

/-- C5 counterexample: living players Alex, Bailey, Casey in roster order;
two tied kill votes arriving as [Casey, Bailey].  Both the night resolution
and the day tally pick Casey (first vote received first), whereas iteration
order over the living players would pick Bailey — so the claimed tie-break
is not the implemented one. -/
theorem plurality_tiebreak_not_roster_order_counterexample :
    execute_night_kill_choice pxRoster ["Casey".data, "Bailey".data] = some pxCasey ∧
      execute_day_vote_choice pxRoster
        [("Alex".data, "Casey".data), ("Casey".data, "Bailey".data)] = some pxCasey ∧
      claimRosterOrderChoice pxRoster ["Casey".data, "Bailey".data] = some pxBailey ∧
      execute_night_kill_choice pxRoster ["Casey".data, "Bailey".data] ≠
        claimRosterOrderChoice pxRoster ["Casey".data, "Bailey".data] := by
  refine ⟨by decide, by decide, by decide, by decide⟩

/-- C5 amended: both night-kill resolution and day-vote tallying select a
candidate with the strictly highest count, deterministically and identically
in both operations; but on an exact tie the winner is the candidate whose
*first vote arrived earliest* (Python dict insertion order), not the first
candidate in iteration order over the living players.  Formally: the night
choice equals the day choice on the same votes, and equals the first entry,
in first-vote order (`tmodel`), whose count is maximal. -/
theorem plurality_choice_tiebreak_first_vote_order
    (alive : List Player) (mafia_targets : List Str) (voters : List Str)
    (hlen : voters.length = mafia_targets.length)
    (hres : ∀ t ∈ mafia_targets, (alive.find? (fun p => p.player_name = t)).isSome = true) :
    execute_night_kill_choice alive mafia_targets =
        execute_day_vote_choice alive (voters.zip mafia_targets) ∧
      execute_night_kill_choice alive mafia_targets =
        ((tmodel mafia_targets).find? (fun e => e.2 = maxCnt (tmodel mafia_targets))).bind
          (fun e => alive.find? (fun p => p.player_name = e.1)) := by
  have hmap : (voters.zip mafia_targets).map (fun v => v.2) = mafia_targets := by
    have := List.map_snd_zip voters mafia_targets (le_of_eq hlen.symm)
    simpa using this
  rcases eq_or_ne mafia_targets [] with hnil | hnil
  · subst hnil
    constructor
    · simp [execute_night_kill_choice, execute_day_vote_choice, hmap, countVotes, dayMaxScan]
    · simp [execute_night_kill_choice, tmodel_nil]
  · have hcv : countVotes mafia_targets = tmodel mafia_targets :=
      countVotes_eq_tmodel mafia_targets
    have hpos : 0 < maxCnt (tmodel mafia_targets) := by
      obtain ⟨v, r, rfl⟩ := List.exists_cons_of_ne_nil hnil
      rw [tmodel_cons]
      rw [maxCnt_cons]
      omega
    have hresT : ∀ e ∈ tmodel mafia_targets, e.2 = maxCnt (tmodel mafia_targets) →
        (alive.find? (fun p => p.player_name = e.1)).isSome = true := by
      intro e he _
      exact hres e.1 (tmodel_mem mafia_targets e he)
    have hnight : execute_night_kill_choice alive mafia_targets =
        ((tmodel mafia_targets).find? (fun e => e.2 = maxCnt (tmodel mafia_targets))).bind
          (fun e => alive.find? (fun p => p.player_name = e.1)) := by
      unfold execute_night_kill_choice
      rw [if_neg hnil, nightMaxScan_eq_dayMaxScan, hcv]
      exact dayMaxScan_max alive (tmodel mafia_targets) 0 none hpos hresT
    refine ⟨?_, hnight⟩
    unfold execute_day_vote_choice
    rw [hmap, hcv]
    rw [dayMaxScan_max alive (tmodel mafia_targets) 0 none hpos hresT]
    exact hnight

theorem plurality_choice_tiebreak_first_vote_order_witness :
    execute_night_kill_choice pxRoster ["Casey".data, "Bailey".data] =
        execute_day_vote_choice pxRoster
          (["Alex".data, "Casey".data].zip ["Casey".data, "Bailey".data]) ∧
      execute_night_kill_choice pxRoster ["Casey".data, "Bailey".data] =
        ((tmodel ["Casey".data, "Bailey".data]).find?
            (fun e => e.2 = maxCnt (tmodel ["Casey".data, "Bailey".data]))).bind
          (fun e => pxRoster.find? (fun p => p.player_name = e.1)) :=
  plurality_choice_tiebreak_first_vote_order pxRoster
    ["Casey".data, "Bailey".data] ["Alex".data, "Casey".data]
    (by decide) (by decide)

/-! ## Claim C6: extractor safety -/

/-- C6: for every response text and player list, the night-action and
day-vote extractors never return a dead target, never the actor itself (for
a Mafia kill or a day vote), and never a fellow Mafia member (for a Mafia
kill); a target resolves only when the regex-captured name — after the
trimming each function performs (`strip` plus trailing-punctuation `rstrip`
for night actions, `strip` for day votes) — equals the target's visible name
case-insensitively, with no fuzzy or partial matching; otherwise the result
is `none`. -/
theorem extractors_target_safety (self : Player) (response : Str) (all_players : List Player) :
    (∀ a t, parse_night_action self response all_players = some (a, t) →
      t.alive = true ∧
      (self.role = Role.Mafia →
        a = "kill".data ∧ t.role ≠ Role.Mafia ∧ t.player_name ≠ self.player_name ∧
        ∃ cap, killScan response = some cap ∧
          lowerStr t.player_name = lowerStr (stripRight punctSet (pyStrip cap))) ∧
      (self.role = Role.Doctor →
        a = "protect".data ∧
        ∃ cap, protectScan response = some cap ∧
          lowerStr t.player_name = lowerStr (stripRight punctSet (pyStrip cap)))) ∧
    (∀ t, parse_day_vote self response all_players = some t →
      t.alive = true ∧ t.player_name ≠ self.player_name ∧
      ∃ cap, pvoteScan response = some cap ∧
        lowerStr t.player_name = lowerStr (pyStrip cap)) := by
  constructor
  · intro a t hpt
    unfold parse_night_action at hpt
    cases hrole : self.role with
    | Mafia =>
      rw [hrole] at hpt
      cases hk : killScan response with
      | none => rw [hk] at hpt; simp at hpt
      | some cap =>
        rw [hk] at hpt
        rw [Option.map_eq_some'] at hpt
        obtain ⟨p, hfind, hmk⟩ := hpt
        have hpred := List.find?_some hfind
        simp only [Bool.and_eq_true, decide_eq_true_eq] at hpred
        obtain ⟨⟨⟨hname, halive⟩, hrole2⟩, hself⟩ := hpred
        have hpt' : p = t := by
          have := congrArg Prod.snd hmk
          simpa using this
        subst hpt'
        have hak : a = "kill".data := by
          have := congrArg Prod.fst hmk
          simpa using this.symm
        refine ⟨halive, fun _ => ⟨hak, hrole2, hself, cap, rfl, hname⟩, fun hd => ?_⟩
        cases hd
    | Doctor =>
      rw [hrole] at hpt
      cases hk : protectScan response with
      | none => rw [hk] at hpt; simp at hpt
      | some cap =>
        rw [hk] at hpt
        rw [Option.map_eq_some'] at hpt
        obtain ⟨p, hfind, hmk⟩ := hpt
        have hpred := List.find?_some hfind
        simp only [Bool.and_eq_true, decide_eq_true_eq] at hpred
        obtain ⟨hname, halive⟩ := hpred
        have hpt' : p = t := by
          have := congrArg Prod.snd hmk
          simpa using this
        subst hpt'
        have hak : a = "protect".data := by
          have := congrArg Prod.fst hmk
          simpa using this.symm
        refine ⟨halive, fun hm => ?_, fun _ => ⟨hak, cap, rfl, hname⟩⟩
        cases hm
    | Villager =>
      rw [hrole] at hpt
      simp at hpt
  · intro t hpt
    unfold parse_day_vote at hpt
    cases hv : pvoteScan response with
    | none => rw [hv] at hpt; simp at hpt
    | some cap =>
      rw [hv] at hpt
      have hpred := List.find?_some hpt
      simp only [Bool.and_eq_true, decide_eq_true_eq] at hpred
      obtain ⟨⟨hname, hself⟩, halive⟩ := hpred
      exact ⟨halive, hself, cap, rfl, hname⟩

theorem extractors_target_safety_witness :
    parse_night_action pxCasey ("ACTION: Kill Bailey.".data) pxRoster =
        some ("kill".data, pxBailey) ∧
      pxBailey.alive = true ∧ pxBailey.role ≠ Role.Mafia ∧
      pxBailey.player_name ≠ pxCasey.player_name ∧
      parse_day_vote pxAlex ("I agree. VOTE: Casey".data) pxRoster = some pxCasey ∧
      pxCasey.alive = true ∧ pxCasey.player_name ≠ pxAlex.player_name := by
  have hn := (extractors_target_safety pxCasey ("ACTION: Kill Bailey.".data) pxRoster).1
    ("kill".data) pxBailey (by decide)
  have hd := (extractors_target_safety pxAlex ("I agree. VOTE: Casey".data) pxRoster).2
    pxCasey (by decide)
  have hm := hn.2.1 (by decide)
  exact ⟨by decide, hn.1, hm.2.1, hm.2.2.1, by decide, hd.1, hd.2.1⟩

/-! ## Claim C2: mandatory day voting with random fallback -/

theorem day_vote_of_player_key (alive : List Player) (responses : Str → Str)
    (choice : List Player → Player) (q : Player) (x : Str × Str)
    (h : day_vote_of_player alive responses choice q = some x) :
    x.1 = q.player_name := by
  simp only [day_vote_of_player] at h
  split at h
  · exact absurd h (by simp)
  · rw [Option.map_eq_some'] at h
    obtain ⟨t, _, hx⟩ := h
    simp [← hx]

theorem parse_day_vote_mem_props (self : Player) (resp : Str) (ps : List Player)
    (t : Player) (h : parse_day_vote self resp ps = some t) :
    t ∈ ps ∧ t.player_name ≠ self.player_name ∧ t.alive = true := by
  unfold parse_day_vote at h
  cases hv : pvoteScan resp with
  | none => rw [hv] at h; simp at h
  | some cap =>
    rw [hv] at h
    have hmem := List.mem_of_find?_eq_some h
    have hpred := List.find?_some h
    simp only [Bool.and_eq_true, decide_eq_true_eq] at hpred
    exact ⟨hmem, hpred.1.2, hpred.2⟩

theorem exists_other_player {alive : List Player} {p : Player}
    (hnodup : (alive.map (fun q => q.player_name)).Nodup)
    (htwo : 2 ≤ alive.length) :
    alive.filter (fun q => q.player_name ≠ p.player_name) ≠ [] := by
  match alive, htwo with
  | a1 :: a2 :: rest, _ =>
    simp only [List.map_cons, List.nodup_cons] at hnodup
    intro hemp
    have hall : ∀ q ∈ a1 :: a2 :: rest, q.player_name = p.player_name := by
      intro q hq
      by_contra hne
      have hmemf : q ∈ List.filter (fun q => decide (q.player_name ≠ p.player_name))
          (a1 :: a2 :: rest) :=
        List.mem_filter.mpr ⟨hq, by simpa using hne⟩
      rw [hemp] at hmemf
      simp at hmemf
    have h1 := hall a1 (by simp)
    have h2 := hall a2 (by simp)
    have : a1.player_name ∈ (a2 :: rest).map (fun q => q.player_name) := by
      simp only [List.map_cons, List.mem_cons]
      exact Or.inl (by rw [h1, h2])
    exact hnodup.1 this

theorem day_vote_of_player_some (alive : List Player) (responses : Str → Str)
    (choice : List Player → Player)
    (hchoice : ∀ l : List Player, l ≠ [] → choice l ∈ l)
    (hnodup : (alive.map (fun q => q.player_name)).Nodup)
    (htwo : 2 ≤ alive.length) (p : Player)
    (hnb : sanitize_model_response (responses p.player_name) p.player_name
        (alive.map (fun q => q.player_name)) ("day_voting".data) ≠ []) :
    ∃ t : Player,
      day_vote_of_player alive responses choice p = some (p.player_name, t.player_name) ∧
        t ∈ alive ∧ t.player_name ≠ p.player_name := by
  simp only [day_vote_of_player]
  rw [if_neg hnb]
  cases hv : parse_day_vote p (sanitize_model_response (responses p.player_name)
      p.player_name (alive.map (fun q => q.player_name)) ("day_voting".data)) alive with
  | some t =>
    obtain ⟨hmem, hne, halive⟩ := parse_day_vote_mem_props _ _ _ _ hv
    refine ⟨t, ?_, hmem, hne⟩
    simp [hne, halive]
  | none =>
    have hposs := exists_other_player (p := p) hnodup htwo
    have hcmem := hchoice _ hposs
    have hprop := List.mem_filter.mp hcmem
    refine ⟨choice (alive.filter (fun q => q.player_name ≠ p.player_name)), ?_,
      hprop.1, by simpa using hprop.2⟩
    simp only [hv, if_neg hposs]
    simp [if_neg hposs]

theorem filterMap_key_singleton (alive : List Player) (g : Player → Option (Str × Str))
    (hkey : ∀ q x, g q = some x → x.1 = q.player_name)
    (hnodup : (alive.map (fun q => q.player_name)).Nodup)
    (p : Player) (hp : p ∈ alive) (x : Str × Str) (hx : g p = some x) :
    (alive.filterMap g).filter (fun v => v.1 = p.player_name) = [x] := by
  induction alive with
  | nil => simp at hp
  | cons q rest ih =>
    simp only [List.map_cons, List.nodup_cons] at hnodup
    rcases List.mem_cons.mp hp with hpq | hpr
    · subst hpq
      rw [List.filterMap_cons, hx, List.filter_cons]
      rw [if_pos (by simpa using hkey p x hx)]
      have hrest : List.filter (fun v => decide (v.1 = p.player_name))
          (rest.filterMap g) = [] := by
        rw [List.filter_eq_nil_iff]
        intro v hv
        obtain ⟨r, hr, hgr⟩ := List.mem_filterMap.mp hv
        have hv1 := hkey r v hgr
        simp only [decide_eq_true_eq]
        rw [hv1]
        intro heq
        exact hnodup.1 (heq ▸ List.mem_map_of_mem _ hr)
      rw [hrest]
    · rw [List.filterMap_cons]
      cases hg : g q with
      | none => exact ih hnodup.2 hpr
      | some y =>
        rw [List.filter_cons]
        have hqp : ¬ (y.1 = p.player_name) := by
          rw [hkey q y hg]
          intro heq
          exact hnodup.1 (heq ▸ List.mem_map_of_mem _ hpr)
        rw [if_neg (by simpa using hqp)]
        exact ih hnodup.2 hpr

/-- C2 counterexample: three living players whose day-voting replies are all
blank.  Sanitization yields the empty string, every player is skipped by the
`continue` guard of `_conduct_player_interactions`, no auto-substitution
happens, the votes mapping is empty, and no plurality target is computable —
contradicting "every living player contributes exactly one counted vote". -/
theorem day_voting_all_blank_no_votes :
    conduct_day_voting pxRoster (fun _ => []) (fun l => l.headD pxAlex) = [] ∧
      execute_day_vote_choice pxRoster
        (conduct_day_voting pxRoster (fun _ => []) (fun l => l.headD pxAlex)) = none := by
  refine ⟨by decide, by decide⟩

/-- C2 amended: a living player contributes exactly one counted vote iff its
reply survives sanitization non-empty; for such a player a missing,
self-targeted, or dead-target vote is replaced by a substitute drawn by
`random.choice` from the other living players, so the recorded vote always
names a living player other than the voter.  Players whose reply sanitizes
to the empty string are skipped and contribute no vote (so with all-blank
replies no votes are cast at all — see the counterexample). -/
theorem day_voting_nonblank_exactly_one_vote
    (alive : List Player) (responses : Str → Str) (choice : List Player → Player)
    (hchoice : ∀ l : List Player, l ≠ [] → choice l ∈ l)
    (hnodup : (alive.map (fun q => q.player_name)).Nodup)
    (htwo : 2 ≤ alive.length)
    (p : Player) (hp : p ∈ alive)
    (hnb : sanitize_model_response (responses p.player_name) p.player_name
        (alive.map (fun q => q.player_name)) ("day_voting".data) ≠ []) :
    ∃ t : Player, t ∈ alive ∧ t.player_name ≠ p.player_name ∧
      (conduct_day_voting alive responses choice).filter
          (fun v => v.1 = p.player_name) = [(p.player_name, t.player_name)] := by
  obtain ⟨t, hsome, hmem, hne⟩ :=
    day_vote_of_player_some alive responses choice hchoice hnodup htwo p hnb
  exact ⟨t, hmem, hne,
    filterMap_key_singleton alive _ (day_vote_of_player_key alive responses choice)
      hnodup p hp _ hsome⟩

theorem day_voting_nonblank_exactly_one_vote_witness :
    ∃ t : Player, t ∈ pxRoster ∧ t.player_name ≠ pxAlex.player_name ∧
      (conduct_day_voting pxRoster (fun _ => "hmm, no vote from me".data)
          (fun l => l.headD pxAlex)).filter
        (fun v => v.1 = pxAlex.player_name) = [(pxAlex.player_name, t.player_name)] := by
  apply day_voting_nonblank_exactly_one_vote pxRoster
    (fun _ => "hmm, no vote from me".data) (fun l => l.headD pxAlex)
  · intro l hl
    cases l with
    | nil => exact absurd rfl hl
    | cons a r => simp [List.headD]
  · decide
  · decide
  · decide
  · decide

/-! ## Occurrence and strip lemmas for the sanitizer claims -/

theorem leadsWith_iff_append {n s : Str} :
    leadsWith n s = true ↔ ∃ b, s = n ++ b := by
  induction n generalizing s with
  | nil => simp [leadsWith]
  | cons c cs ih =>
    cases s with
    | nil =>
      simp [leadsWith]
    | cons d ds =>
      simp only [leadsWith, Bool.and_eq_true, decide_eq_true_eq, ih]
      constructor
      · rintro ⟨rfl, b, rfl⟩
        exact ⟨b, rfl⟩
      · rintro ⟨b, hb⟩
        injection hb with h1 h2
        exact ⟨h1.symm, b, h2⟩

theorem containsSub_iff {n s : Str} :
    containsSub n s = true ↔ ∃ a b, s = a ++ n ++ b := by
  induction s with
  | nil =>
    simp only [containsSub, leadsWith_iff_append]
    constructor
    · rintro ⟨b, hb⟩
      exact ⟨[], b, by simpa using hb⟩
    · rintro ⟨a, b, hab⟩
      have ha : a = [] := by
        cases a with
        | nil => rfl
        | cons x xs => simp at hab
      subst ha
      exact ⟨b, by simpa using hab⟩
  | cons c cs ih =>
    simp only [containsSub, Bool.or_eq_true, leadsWith_iff_append, ih]
    constructor
    · rintro (⟨b, hb⟩ | ⟨a, b, hab⟩)
      · exact ⟨[], b, by simpa using hb⟩
      · exact ⟨c :: a, b, by simp [hab]⟩
    · rintro ⟨a, b, hab⟩
      cases a with
      | nil => exact Or.inl ⟨b, by simpa using hab⟩
      | cons x xs =>
        injection hab with h1 h2
        exact Or.inr ⟨xs, b, h2⟩

theorem containsSub_self (s : Str) : containsSub s s = true :=
  containsSub_iff.mpr ⟨[], [], by simp⟩

theorem containsSub_of_subseg {n t s : Str} (h : containsSub n t = true)
    (a b : Str) (hs : s = a ++ t ++ b) : containsSub n s = true := by
  obtain ⟨x, y, rfl⟩ := containsSub_iff.mp h
  exact containsSub_iff.mpr ⟨a ++ x, y ++ b, by simp [hs]⟩

theorem containsSub_map {n s : Str} (f : Char → Char) (h : containsSub n s = true) :
    containsSub (n.map f) (s.map f) = true := by
  obtain ⟨a, b, rfl⟩ := containsSub_iff.mp h
  exact containsSub_iff.mpr ⟨a.map f, b.map f, by simp⟩

theorem leadsWith_append_cons {n x y : Str} {c : Char} (hc : c ∉ n)
    (h : leadsWith n (x ++ c :: y) = true) : leadsWith n x = true := by
  induction n generalizing x with
  | nil => simp [leadsWith]
  | cons d ds ih =>
    cases x with
    | nil =>
      simp only [List.nil_append, leadsWith, Bool.and_eq_true, decide_eq_true_eq] at h
      exact absurd (h.1 ▸ List.mem_cons_self d ds) (by simpa [h.1] using hc)
    | cons e es =>
      simp only [List.cons_append, leadsWith, Bool.and_eq_true, decide_eq_true_eq] at h ⊢
      exact ⟨h.1, ih (fun hm => hc (List.mem_cons_of_mem _ hm)) h.2⟩

theorem containsSub_split {n x y : Str} {c : Char} (hc : c ∉ n)
    (h : containsSub n (x ++ c :: y) = true) :
    containsSub n x = true ∨ containsSub n y = true := by
  induction x with
  | nil =>
    simp only [List.nil_append, containsSub, Bool.or_eq_true] at h
    rcases h with h | h
    · cases n with
      | nil => left; simp [containsSub, leadsWith]
      | cons d ds =>
        simp only [leadsWith, Bool.and_eq_true, decide_eq_true_eq] at h
        exact absurd (h.1 ▸ List.mem_cons_self d ds) (by simpa [h.1] using hc)
    · exact Or.inr h
  | cons e es ih =>
    simp only [List.cons_append, containsSub, Bool.or_eq_true] at h
    rcases h with h | h
    · have h2 : leadsWith n ((e :: es) ++ c :: y) = true := h
      have := leadsWith_append_cons hc h2
      left
      simp [containsSub, this]
    · rcases ih h with h1 | h1
      · left
        simp [containsSub, h1]
      · exact Or.inr h1

theorem stripLeft_decomp (p : Char → Bool) (s : Str) :
    s = s.takeWhile p ++ stripLeft p s :=
  (List.takeWhile_append_dropWhile ..).symm

theorem stripRight_decomp (p : Char → Bool) (s : Str) :
    s = stripRight p s ++ (s.reverse.takeWhile p).reverse := by
  unfold stripRight
  conv_lhs => rw [← List.reverse_reverse s,
    ← List.takeWhile_append_dropWhile (p := p) (l := s.reverse)]
  rw [List.reverse_append]

theorem pyStrip_decomp (s : Str) :
    ∃ a b, s = a ++ pyStrip s ++ b ∧ (∀ c ∈ a, pySpace c = true) ∧
      (∀ c ∈ b, pySpace c = true) := by
  refine ⟨s.takeWhile pySpace, ((stripLeft pySpace s).reverse.takeWhile pySpace).reverse,
    ?_, ?_, ?_⟩
  · conv_lhs => rw [stripLeft_decomp pySpace s]
    rw [List.append_assoc]
    congr 1
    exact stripRight_decomp pySpace (stripLeft pySpace s)
  · intro c hc
    exact List.mem_takeWhile_imp hc
  · intro c hc
    rw [List.mem_reverse] at hc
    exact List.mem_takeWhile_imp hc

theorem containsSub_pyStrip {n s : Str} (h : containsSub n (pyStrip s) = true) :
    containsSub n s = true := by
  obtain ⟨a, b, hs, _, _⟩ := pyStrip_decomp s
  exact containsSub_of_subseg h a b hs

theorem mem_pyStrip {c : Char} {s : Str} (h : c ∈ pyStrip s) : c ∈ s := by
  obtain ⟨a, b, hs, _, _⟩ := pyStrip_decomp s
  rw [hs]
  simp [h]

theorem dropWhile_head_not {p : Char → Bool} {s : Str} {c : Char} {t : Str}
    (h : s.dropWhile p = c :: t) : p c = false := by
  induction s with
  | nil => simp at h
  | cons d ds ih =>
    rw [List.dropWhile_cons] at h
    by_cases hd : p d
    · rw [if_pos hd] at h
      exact ih h
    · rw [if_neg hd] at h
      injection h with h1 _
      subst h1
      simpa using hd

theorem dropWhile_idem (p : Char → Bool) (s : Str) :
    (s.dropWhile p).dropWhile p = s.dropWhile p := by
  cases h : s.dropWhile p with
  | nil => rfl
  | cons c t =>
    rw [List.dropWhile_cons, if_neg (by simp [dropWhile_head_not h])]

theorem stripRight_idem (p : Char → Bool) (s : Str) :
    stripRight p (stripRight p s) = stripRight p s := by
  unfold stripRight
  rw [List.reverse_reverse, dropWhile_idem]

theorem stripLeft_stripRight_head {p : Char → Bool} {s : Str}
    (hs : stripLeft p s = s) : stripLeft p (stripRight p s) = stripRight p s := by
  cases h : stripRight p s with
  | nil => rfl
  | cons c t =>
    have hdec := stripRight_decomp p s
    rw [h] at hdec
    have hhead : ∃ u, s = c :: u := ⟨t ++ (s.reverse.takeWhile p).reverse, by simpa using hdec⟩
    obtain ⟨u, hu⟩ := hhead
    have hpc : p c = false := by
      have := hs
      rw [hu] at this
      unfold stripLeft at this
      rw [List.dropWhile_cons] at this
      by_cases hc : p c
      · rw [if_pos hc] at this
        exfalso
        have hlen := congrArg List.length this
        have : (u.dropWhile p).length ≤ u.length := (List.dropWhile_sublist _).length_le
        simp at hlen
        omega
      · simpa using hc
    unfold stripLeft
    rw [List.dropWhile_cons, if_neg (by simp [hpc])]

theorem pyStrip_idem (s : Str) : pyStrip (pyStrip s) = pyStrip s := by
  unfold pyStrip
  have h1 : stripLeft pySpace (stripLeft pySpace s) = stripLeft pySpace s :=
    dropWhile_idem pySpace s
  rw [stripLeft_stripRight_head h1, stripRight_idem]

theorem stripLeft_pyStrip (s : Str) : stripLeft pySpace (pyStrip s) = pyStrip s := by
  unfold pyStrip
  exact stripLeft_stripRight_head (dropWhile_idem pySpace s)

theorem stripRight_pyStrip (s : Str) : stripRight pySpace (pyStrip s) = pyStrip s := by
  unfold pyStrip
  exact stripRight_idem pySpace _

theorem joinNl_splitNl (s : Str) : joinNl (splitNl s) = s := by
  induction s with
  | nil => rfl
  | cons c cs ih =>
    simp only [splitNl]
    by_cases hc : c = '\n'
    · rw [if_pos hc]
      subst hc
      cases h : splitNl cs with
      | nil => exact absurd h (splitNl_ne_nil cs)
      | cons l ls =>
        rw [h] at ih
        simp [joinNl, ← ih]
    · rw [if_neg hc]
      cases h : splitNl cs with
      | nil => exact absurd h (splitNl_ne_nil cs)
      | cons l ls =>
        rw [h] at ih
        cases ls with
        | nil => simp [joinNl] at ih ⊢; rw [ih]
        | cons l2 ls2 => simp [joinNl] at ih ⊢; rw [ih]

theorem joinNl_subseg {l : Str} {ls : List Str} (h : l ∈ ls) :
    ∃ a b, joinNl ls = a ++ l ++ b := by
  induction ls with
  | nil => simp at h
  | cons x xs ih =>
    rcases List.mem_cons.mp h with rfl | hm
    · cases xs with
      | nil => exact ⟨[], [], by simp [joinNl]⟩
      | cons y ys => exact ⟨[], '\n' :: joinNl (y :: ys), by simp [joinNl]⟩
    · obtain ⟨a, b, hab⟩ := ih hm
      cases xs with
      | nil => simp at hm
      | cons y ys =>
        exact ⟨x ++ '\n' :: a, b, by simp [joinNl, hab]⟩

theorem splitNl_line_subseg {l : Str} {s : Str} (h : l ∈ splitNl s) :
    ∃ a b, s = a ++ l ++ b := by
  obtain ⟨a, b, hab⟩ := joinNl_subseg h
  exact ⟨a, b, by rw [← joinNl_splitNl s, hab]⟩

theorem containsSub_nil_of_ne {n : Str} (hne : n ≠ []) : containsSub n [] = false := by
  cases n with
  | nil => exact absurd rfl hne
  | cons c cs => rfl

theorem containsSub_joinNl {n : Str} {ls : List Str} (hn : '\n' ∉ n) (hne : n ≠ [])
    (h : containsSub n (joinNl ls) = true) : ∃ l ∈ ls, containsSub n l = true := by
  induction ls with
  | nil =>
    rw [show joinNl [] = [] from rfl, containsSub_nil_of_ne hne] at h
    cases h
  | cons x xs ih =>
    cases xs with
    | nil =>
      exact ⟨x, by simp, by simpa [joinNl] using h⟩
    | cons y ys =>
      rw [show joinNl (x :: y :: ys) = x ++ '\n' :: joinNl (y :: ys) from rfl] at h
      rcases containsSub_split hn h with h1 | h1
      · exact ⟨x, by simp, h1⟩
      · obtain ⟨l, hl, hcl⟩ := ih h1
        exact ⟨l, List.mem_cons_of_mem _ hl, hcl⟩

theorem containsSub_joinSpace {n : Str} {ls : List Str} (hn : ' ' ∉ n) (hne : n ≠ [])
    (h : containsSub n (joinSpace ls) = true) : ∃ l ∈ ls, containsSub n l = true := by
  induction ls with
  | nil =>
    rw [show joinSpace [] = [] from rfl, containsSub_nil_of_ne hne] at h
    cases h
  | cons x xs ih =>
    cases xs with
    | nil =>
      exact ⟨x, by simp, by simpa [joinSpace] using h⟩
    | cons y ys =>
      rw [show joinSpace (x :: y :: ys) = x ++ ' ' :: joinSpace (y :: ys) from rfl] at h
      rcases containsSub_split hn h with h1 | h1
      · exact ⟨x, by simp, h1⟩
      · obtain ⟨l, hl, hcl⟩ := ih h1
        exact ⟨l, List.mem_cons_of_mem _ hl, hcl⟩

theorem containsSub_joinDropBad {n : Str} {bad : Str → Bool} {ls : List Str}
    (hn : '\n' ∉ n) (hne : n ≠ [])
    (h : containsSub n (joinDropBad bad ls) = true) :
    ∃ l ∈ ls, containsSub n l = true := by
  induction ls with
  | nil =>
    rw [show joinDropBad bad [] = [] from rfl, containsSub_nil_of_ne hne] at h
    cases h
  | cons x xs ih =>
    cases xs with
    | nil =>
      by_cases hb : bad x
      · rw [show joinDropBad bad [x] = if bad x then [] else x from rfl, if_pos hb,
          containsSub_nil_of_ne hne] at h
        cases h
      · refine ⟨x, by simp, ?_⟩
        rw [show joinDropBad bad [x] = if bad x then [] else x from rfl, if_neg hb] at h
        exact h
    | cons y ys =>
      rw [show joinDropBad bad (x :: y :: ys) =
          if bad x then joinDropBad bad (y :: ys)
          else x ++ '\n' :: joinDropBad bad (y :: ys) from rfl] at h
      by_cases hb : bad x
      · rw [if_pos hb] at h
        obtain ⟨l, hl, hcl⟩ := ih h
        exact ⟨l, List.mem_cons_of_mem _ hl, hcl⟩
      · rw [if_neg hb] at h
        rcases containsSub_split hn h with h1 | h1
        · exact ⟨x, by simp, h1⟩
        · obtain ⟨l, hl, hcl⟩ := ih h1
          exact ⟨l, List.mem_cons_of_mem _ hl, hcl⟩

theorem my_min?_mem {l : List Nat} {a : Nat} (h : l.min? = some a) : a ∈ l := by
  induction l generalizing a with
  | nil => simp [List.min?] at h
  | cons x xs ih =>
    rw [List.min?_cons] at h
    cases hxs : xs.min? with
    | none =>
      rw [hxs] at h
      simp at h
      simp [← h]
    | some m =>
      rw [hxs] at h
      simp at h
      rcases Nat.le_total x m with hle | hle
      · rw [min_eq_left hle] at h
        simp [← h]
      · rw [min_eq_right hle] at h
        exact List.mem_cons_of_mem _ (ih (by rw [hxs, h]))

theorem my_min?_le {l : List Nat} {a b : Nat} (h : l.min? = some a) (hb : b ∈ l) : a ≤ b := by
  induction l generalizing a with
  | nil => simp at hb
  | cons x xs ih =>
    rw [List.min?_cons] at h
    cases hxs : xs.min? with
    | none =>
      rw [hxs] at h
      cases xs with
      | nil =>
        simp at h hb
        omega
      | cons y ys => simp [List.min?_cons] at hxs
    | some m =>
      rw [hxs] at h
      simp at h
      rcases List.mem_cons.mp hb with rfl | hbm
      · omega
      · have := ih (a := m) (by rw [hxs]) hbm
        omega

theorem findOccur_isSome (n s : Str) : (findOccur n s).isSome = containsSub n s := by
  induction s with
  | nil =>
    unfold findOccur containsSub
    by_cases h : leadsWith n [] = true
    · rw [if_pos h, h]; rfl
    · rw [if_neg h, Bool.eq_false_iff.mpr h]; rfl
  | cons c cs ih =>
    unfold findOccur containsSub
    by_cases h : leadsWith n (c :: cs) = true
    · rw [if_pos h, h]; rfl
    · rw [if_neg h, Bool.eq_false_iff.mpr h]
      simpa using ih

theorem findOccur_sound {n s : Str} {i : Nat} (h : findOccur n s = some i) :
    leadsWith n (s.drop i) = true := by
  induction s generalizing i with
  | nil =>
    unfold findOccur at h
    by_cases hl : leadsWith n [] = true
    · rw [if_pos hl] at h
      injection h with h1
      subst h1
      simpa using hl
    · rw [if_neg hl] at h
      cases h
  | cons c cs ih =>
    unfold findOccur at h
    by_cases hl : leadsWith n (c :: cs) = true
    · rw [if_pos hl] at h
      injection h with h1
      subst h1
      simpa using hl
    · rw [if_neg hl] at h
      rw [Option.map_eq_some'] at h
      obtain ⟨j, hj, rfl⟩ := h
      simpa using ih hj

theorem findOccur_min {n s : Str} {i : Nat} (h : findOccur n s = some i) :
    ∀ j < i, leadsWith n (s.drop j) = false := by
  induction s generalizing i with
  | nil =>
    unfold findOccur at h
    by_cases hl : leadsWith n [] = true
    · rw [if_pos hl] at h
      injection h with h1
      subst h1
      omega
    · rw [if_neg hl] at h
      cases h
  | cons c cs ih =>
    unfold findOccur at h
    by_cases hl : leadsWith n (c :: cs) = true
    · rw [if_pos hl] at h
      injection h with h1
      subst h1
      omega
    · rw [if_neg hl] at h
      rw [Option.map_eq_some'] at h
      obtain ⟨j0, hj0, rfl⟩ := h
      intro j hj
      cases j with
      | zero => simpa using Bool.eq_false_iff.mpr hl
      | succ k => simpa using ih hj0 k (by omega)

theorem containsSub_iff_drop {n s : Str} :
    containsSub n s = true ↔ ∃ j, leadsWith n (s.drop j) = true := by
  constructor
  · intro h
    obtain ⟨a, b, rfl⟩ := containsSub_iff.mp h
    refine ⟨a.length, ?_⟩
    rw [List.append_assoc, List.drop_left]
    exact leadsWith_iff_append.mpr ⟨b, rfl⟩
  · rintro ⟨j, hj⟩
    obtain ⟨b, hb⟩ := leadsWith_iff_append.mp hj
    refine containsSub_iff.mpr ⟨s.take j, b, ?_⟩
    conv_lhs => rw [← List.take_append_drop j s, hb]
    simp

theorem leadsWith_take {n t : Str} {k : Nat} (h : leadsWith n (t.take k) = true) :
    leadsWith n t = true := by
  obtain ⟨b, hb⟩ := leadsWith_iff_append.mp h
  refine leadsWith_iff_append.mpr ⟨b ++ t.drop k, ?_⟩
  conv_lhs => rw [← List.take_append_drop k t, hb]
  simp

theorem occurrence_in_take {n s : Str} {m j : Nat} (hne : n ≠ [])
    (h : leadsWith n ((s.take m).drop j) = true) :
    j < m ∧ leadsWith n (s.drop j) = true := by
  have hjm : j < m := by
    by_contra hge
    have hlen : (s.take m).length ≤ j := by
      simp only [List.length_take]
      omega
    rw [List.drop_eq_nil_of_le hlen] at h
    cases n with
    | nil => exact hne rfl
    | cons c cs => simp [leadsWith] at h
  refine ⟨hjm, ?_⟩
  rw [List.drop_take] at h
  exact leadsWith_take h

theorem firstKwPos_le {kws : List Str} {s : Str} {p : Nat} (h : firstKwPos kws s = some p)
    {kw : Str} (hkw : kw ∈ kws) {i : Nat} (hi : findOccur kw (lowerStr s) = some i) :
    p ≤ i := by
  unfold firstKwPos at h
  exact my_min?_le h (List.mem_filterMap.mpr ⟨kw, hkw, hi⟩)

theorem cutAtKw_free {kws : List Str} {s : Str} {kw : Str} (hkw : kw ∈ kws)
    (hne : kw ≠ []) : containsSub kw (lowerStr (cutAtKw kws s)) = false := by
  unfold cutAtKw
  cases hp : firstKwPos kws s with
  | none =>
    dsimp only
    by_contra hcon
    have hcon2 : containsSub kw (lowerStr s) = true := by
      cases hct : containsSub kw (lowerStr s) with
      | false => exact absurd hct (by simpa using hcon)
      | true => rfl
    have hiso := findOccur_isSome kw (lowerStr s)
    rw [hcon2] at hiso
    obtain ⟨i, hi⟩ := Option.isSome_iff_exists.mp hiso
    unfold firstKwPos at hp
    have hmem : i ∈ kws.filterMap (fun k => findOccur k (lowerStr s)) :=
      List.mem_filterMap.mpr ⟨kw, hkw, hi⟩
    rcases hl : kws.filterMap (fun k => findOccur k (lowerStr s)) with _ | ⟨a, r⟩
    · rw [hl] at hmem; cases hmem
    · rw [hl] at hp; simp [List.min?_cons] at hp
  | some p =>
    have hm : ∀ m ≤ p, containsSub kw (lowerStr (s.take m)) = false := by
      intro m hmp
      by_contra hcon
      have hcon2 : containsSub kw (lowerStr (s.take m)) = true := by
        cases hct : containsSub kw (lowerStr (s.take m)) with
        | false => exact absurd hct (by simpa using hcon)
        | true => rfl
      rw [show lowerStr (s.take m) = (lowerStr s).take m by simp [lowerStr, List.map_take]]
        at hcon2
      obtain ⟨j, hj⟩ := containsSub_iff_drop.mp hcon2
      obtain ⟨hjm, hocc⟩ := occurrence_in_take hne hj
      cases hfo : findOccur kw (lowerStr s) with
      | none =>
        have hiso := findOccur_isSome kw (lowerStr s)
        rw [hfo] at hiso
        have : containsSub kw (lowerStr s) = true := containsSub_iff_drop.mpr ⟨j, hocc⟩
        rw [this] at hiso
        cases hiso
      | some i =>
        have hpi : p ≤ i := firstKwPos_le hp hkw hfo
        have := findOccur_min hfo j (by omega)
        rw [hocc] at this
        cases this
    dsimp only
    split
    · apply hm (p - 1)
      omega
    · apply hm p
      omega

theorem cutAtKw_id {kws : List Str} {s : Str}
    (h : ∀ kw ∈ kws, containsSub kw (lowerStr s) = false) : cutAtKw kws s = s := by
  unfold cutAtKw
  have hfp : firstKwPos kws s = none := by
    unfold firstKwPos
    have hfm : kws.filterMap (fun k => findOccur k (lowerStr s)) = [] := by
      rw [List.filterMap_eq_nil_iff]
      intro kw hkw
      have hc := h kw hkw
      have hs := findOccur_isSome kw (lowerStr s)
      rw [hc] at hs
      cases hfo : findOccur kw (lowerStr s) with
      | none => rfl
      | some i => rw [hfo] at hs; cases hs
    rw [hfm]
    rfl
  rw [hfp]

theorem containsSub_of_leadsWith {n s : Str} (h : leadsWith n s = true) :
    containsSub n s = true := by
  cases s with
  | nil => simpa [containsSub] using h
  | cons c cs => simp [containsSub, h]

theorem containsSub_drop {n s : Str} {k : Nat} (h : containsSub n (s.drop k) = true) :
    containsSub n s = true := by
  refine containsSub_of_subseg h (s.take k) [] ?_
  simp

theorem containsSub_take {n s : Str} {k : Nat} (h : containsSub n (s.take k) = true) :
    containsSub n s = true := by
  refine containsSub_of_subseg h [] (s.drop k) ?_
  simp

theorem voteTryAt_shape {s g : Str} (h : voteTryAt s = some g) :
    leadsWith ("vote:".data) (lowerStr s) = true ∧ ∃ e, g = s.take e := by
  unfold voteTryAt at h
  by_cases hl : leadsWith ("vote:".data) (lowerStr s) = true
  · rw [if_pos hl] at h
    dsimp only at h
    split at h
    · cases h
    · injection h with h1
      exact ⟨hl, _, h1.symm⟩
  · rw [if_neg hl] at h
    cases h

theorem actionTryAt_shape {s g : Str} (h : actionTryAt s = some g) :
    leadsWith ("action:".data) (lowerStr s) = true ∧ ∃ e, g = s.take e := by
  unfold actionTryAt at h
  by_cases hl : leadsWith ("action:".data) (lowerStr s) = true
  · rw [if_pos hl] at h
    dsimp only at h
    split at h
    · injection h with h1
      exact ⟨hl, _, h1.symm⟩
    · split at h
      · cases h
      · injection h with h1
        exact ⟨hl, _, h1.symm⟩
  · rw [if_neg hl] at h
    cases h

theorem voteScanGo_shape {prev : Option Char} {s g : Str} (h : voteScanGo prev s = some g) :
    containsSub ("vote:".data) (lowerStr s) = true ∧ ∃ i e, g = (s.drop i).take e := by
  induction s generalizing prev with
  | nil => simp [voteScanGo] at h
  | cons c cs ih =>
    unfold voteScanGo at h
    cases htry : (if boundaryOk prev then voteTryAt (c :: cs) else none) with
    | some g0 =>
      rw [htry] at h
      injection h with h1
      subst h1
      have hvt : voteTryAt (c :: cs) = some g0 := by
        by_cases hb : boundaryOk prev = true
        · rw [if_pos hb] at htry; exact htry
        · rw [if_neg hb] at htry; cases htry
      obtain ⟨hl, e, he⟩ := voteTryAt_shape hvt
      exact ⟨containsSub_of_leadsWith hl, 0, e, by simpa using he⟩
    | none =>
      rw [htry] at h
      obtain ⟨hc, i, e, hg⟩ := ih h
      refine ⟨?_, i + 1, e, by simpa using hg⟩
      rw [show lowerStr (c :: cs) = lowerChar c :: lowerStr cs from rfl]
      unfold containsSub
      rw [hc]
      simp

theorem actionScanGo_shape {prev : Option Char} {s g : Str} (h : actionScanGo prev s = some g) :
    containsSub ("action:".data) (lowerStr s) = true ∧ ∃ i e, g = (s.drop i).take e := by
  induction s generalizing prev with
  | nil => simp [actionScanGo] at h
  | cons c cs ih =>
    unfold actionScanGo at h
    cases htry : (if boundaryOk prev then actionTryAt (c :: cs) else none) with
    | some g0 =>
      rw [htry] at h
      injection h with h1
      subst h1
      have hvt : actionTryAt (c :: cs) = some g0 := by
        by_cases hb : boundaryOk prev = true
        · rw [if_pos hb] at htry; exact htry
        · rw [if_neg hb] at htry; cases htry
      obtain ⟨hl, e, he⟩ := actionTryAt_shape hvt
      exact ⟨containsSub_of_leadsWith hl, 0, e, by simpa using he⟩
    | none =>
      rw [htry] at h
      obtain ⟨hc, i, e, hg⟩ := ih h
      refine ⟨?_, i + 1, e, by simpa using hg⟩
      rw [show lowerStr (c :: cs) = lowerChar c :: lowerStr cs from rfl]
      unfold containsSub
      rw [hc]
      simp

theorem dropWhile_as_drop (p : Char → Bool) (u : Str) :
    u.dropWhile p = u.drop ((u.takeWhile p).length) := by
  conv_lhs => rw [show u.dropWhile p =
    ((u.takeWhile p) ++ (u.dropWhile p)).drop ((u.takeWhile p).length) by
      rw [List.drop_left]]
  rw [List.takeWhile_append_dropWhile]

theorem labelLoopF_drop (cur : Str) (fuel : Nat) (s : Str) :
    ∃ k, labelLoopF cur fuel s = s.drop k := by
  induction fuel generalizing s with
  | zero => exact ⟨0, rfl⟩
  | succ fuel ih =>
    unfold labelLoopF
    split
    · obtain ⟨k, hk⟩ := ih ((s.drop (cur.length + 1)).dropWhile pySpace)
      rw [hk, dropWhile_as_drop, List.drop_drop, List.drop_drop]
      exact ⟨_, rfl⟩
    · exact ⟨0, rfl⟩

theorem stripSelfLabel_drop (cur s : Str) : ∃ k, stripSelfLabel cur s = s.drop k := by
  unfold stripSelfLabel
  split
  · exact ⟨0, rfl⟩
  · obtain ⟨k, hk⟩ := labelLoopF_drop cur s.length s
    unfold labelLoop
    rw [hk]
    unfold stripLeft
    rw [dropWhile_as_drop, List.drop_drop]
    exact ⟨_, rfl⟩

theorem mem_ifEmpty {fl x : Str} (hx : x ∈ (if fl = [] then ([] : List Str) else [fl])) :
    x = fl := by
  split at hx
  · cases hx
  · simpa using hx

theorem step6Parts_chars (s : Str) : ∀ x ∈ step6Parts s,
    x = firstNonBlank s ∨ (∃ g, findVoteCmdS s = some g ∧ x = pyStrip g) ∨
      (∃ g, findActionCmdS s = some g ∧ x = pyStrip g) := by
  intro x hx
  unfold step6Parts at hx
  cases hvm : findVoteCmdS s <;> rw [hvm] at hx <;>
    cases ham : findActionCmdS s <;> rw [ham] at hx <;>
      dsimp only at hx
  · exact Or.inl (mem_ifEmpty hx)
  · split at hx
    · exact Or.inl (mem_ifEmpty hx)
    · rcases List.mem_append.mp hx with h1 | h1
      · exact Or.inl (mem_ifEmpty h1)
      · exact Or.inr (Or.inr ⟨_, rfl, by simpa using h1⟩)
  · split at hx
    · exact Or.inl (mem_ifEmpty hx)
    · rcases List.mem_append.mp hx with h1 | h1
      · exact Or.inl (mem_ifEmpty h1)
      · exact Or.inr (Or.inl ⟨_, rfl, by simpa using h1⟩)
  · split at hx
    · split at hx
      · exact Or.inl (mem_ifEmpty hx)
      · rcases List.mem_append.mp hx with h1 | h1
        · exact Or.inl (mem_ifEmpty h1)
        · exact Or.inr (Or.inl ⟨_, rfl, by simpa using h1⟩)
    · split at hx
      · split at hx
        · exact Or.inl (mem_ifEmpty hx)
        · rcases List.mem_append.mp hx with h1 | h1
          · exact Or.inl (mem_ifEmpty h1)
          · exact Or.inr (Or.inl ⟨_, rfl, by simpa using h1⟩)
      · split at hx
        · rcases List.mem_append.mp hx with h1 | h1
          · exact Or.inl (mem_ifEmpty h1)
          · exact Or.inr (Or.inr ⟨_, rfl, by simpa using h1⟩)
        · rcases List.mem_append.mp hx with h1 | h1
          · rcases List.mem_append.mp h1 with h2 | h2
            · exact Or.inl (mem_ifEmpty h2)
            · exact Or.inr (Or.inl ⟨_, rfl, by simpa using h2⟩)
          · exact Or.inr (Or.inr ⟨_, rfl, by simpa using h1⟩)

theorem containsSubL_of_subseg {kw t s : Str} (h : containsSub kw (lowerStr t) = true)
    (a b : Str) (hs : s = a ++ t ++ b) : containsSub kw (lowerStr s) = true := by
  subst hs
  rw [show lowerStr (a ++ t ++ b) = lowerStr a ++ lowerStr t ++ lowerStr b by
    simp [lowerStr]]
  exact containsSub_of_subseg h _ _ rfl

theorem lowerChar_newline : lowerChar '\n' = '\n' := by decide

theorem lowerChar_space : lowerChar ' ' = ' ' := by decide

theorem lowerStr_joinNl (ls : List Str) : lowerStr (joinNl ls) = joinNl (ls.map lowerStr) := by
  induction ls with
  | nil => rfl
  | cons l ls ih =>
    cases ls with
    | nil => rfl
    | cons l2 ls2 =>
      rw [show joinNl (l :: l2 :: ls2) = l ++ '\n' :: joinNl (l2 :: ls2) from rfl]
      rw [show (l :: l2 :: ls2).map lowerStr =
        lowerStr l :: (l2 :: ls2).map lowerStr from rfl]
      rw [show joinNl (lowerStr l :: (l2 :: ls2).map lowerStr) =
        lowerStr l ++ '\n' :: joinNl ((l2 :: ls2).map lowerStr) by
          cases h2 : (l2 :: ls2).map lowerStr with
          | nil => simp at h2
          | cons a r => rfl]
      rw [← ih]
      simp [lowerStr, lowerChar_newline]

theorem lowerStr_joinSpace (ls : List Str) :
    lowerStr (joinSpace ls) = joinSpace (ls.map lowerStr) := by
  induction ls with
  | nil => rfl
  | cons l ls ih =>
    cases ls with
    | nil => rfl
    | cons l2 ls2 =>
      rw [show joinSpace (l :: l2 :: ls2) = l ++ ' ' :: joinSpace (l2 :: ls2) from rfl]
      rw [show (l :: l2 :: ls2).map lowerStr =
        lowerStr l :: (l2 :: ls2).map lowerStr from rfl]
      rw [show joinSpace (lowerStr l :: (l2 :: ls2).map lowerStr) =
        lowerStr l ++ ' ' :: joinSpace ((l2 :: ls2).map lowerStr) by
          cases h2 : (l2 :: ls2).map lowerStr with
          | nil => simp at h2
          | cons a r => rfl]
      rw [← ih]
      simp [lowerStr, lowerChar_space]

theorem firstNonBlank_cases (s : Str) :
    firstNonBlank s = [] ∨ ∃ l ∈ splitNl s, firstNonBlank s = pyStrip l := by
  unfold firstNonBlank
  cases h : (splitNl s).find? (fun l => pyStrip l ≠ []) with
  | none => exact Or.inl rfl
  | some l => exact Or.inr ⟨l, List.mem_of_find?_eq_some h, rfl⟩

theorem rev_step4 {kw u : Str} (hn : '\n' ∉ kw) (hne : kw ≠ [])
    (h : containsSub kw (lowerStr (step4 u)) = true) :
    containsSub kw (lowerStr u) = true := by
  unfold step4 at h
  have h1 : containsSub kw (lowerStr (joinNl
      ((((splitNl (pyStrip u)).dropWhile (fun l => pyStrip l = [])).reverse.dropWhile
        (fun l => pyStrip l = [])).reverse))) = true := by
    obtain ⟨a, b, hd, _, _⟩ := pyStrip_decomp (joinNl
      ((((splitNl (pyStrip u)).dropWhile (fun l => pyStrip l = [])).reverse.dropWhile
        (fun l => pyStrip l = [])).reverse))
    exact containsSubL_of_subseg h a b hd
  rw [lowerStr_joinNl] at h1
  obtain ⟨ll, hll, hcll⟩ := containsSub_joinNl hn hne h1
  obtain ⟨l, hl, rfl⟩ := List.mem_map.mp hll
  have hl2 : l ∈ splitNl (pyStrip u) := by
    rw [List.mem_reverse] at hl
    have hm1 := (List.dropWhile_sublist (l :=
      ((splitNl (pyStrip u)).dropWhile (fun l => pyStrip l = [])).reverse)
      (p := fun l => pyStrip l = [])).mem hl
    rw [List.mem_reverse] at hm1
    exact (List.dropWhile_sublist _).mem hm1
  obtain ⟨a, b, hd⟩ := splitNl_line_subseg hl2
  have h2 : containsSub kw (lowerStr (pyStrip u)) = true :=
    containsSubL_of_subseg hcll a b hd
  obtain ⟨a2, b2, hd2, _, _⟩ := pyStrip_decomp u
  exact containsSubL_of_subseg h2 a2 b2 hd2

theorem rev_stripSelfLabel {kw cur u : Str}
    (h : containsSub kw (lowerStr (stripSelfLabel cur u)) = true) :
    containsSub kw (lowerStr u) = true := by
  obtain ⟨k, hk⟩ := stripSelfLabel_drop cur u
  rw [hk] at h
  rw [show lowerStr (u.drop k) = (lowerStr u).drop k by simp [lowerStr, List.map_drop]] at h
  exact containsSub_drop h

theorem rev_assembleStep6 {kw u : Str} (hn : '\n' ∉ kw) (hsp : ' ' ∉ kw) (hne : kw ≠ [])
    (h : containsSub kw (lowerStr (assembleStep6 u)) = true) :
    containsSub kw (lowerStr u) = true := by
  unfold assembleStep6 at h
  have h1 : containsSub kw (lowerStr (joinSpace (step6Parts u))) = true := by
    obtain ⟨a, b, hd, _, _⟩ := pyStrip_decomp (joinSpace (step6Parts u))
    exact containsSubL_of_subseg h a b hd
  rw [lowerStr_joinSpace] at h1
  obtain ⟨ll, hll, hcll⟩ := containsSub_joinSpace hsp hne h1
  obtain ⟨x, hx, rfl⟩ := List.mem_map.mp hll
  rcases step6Parts_chars u x hx with hfl | ⟨g, hg, rfl⟩ | ⟨g, hg, rfl⟩
  · subst hfl
    rcases firstNonBlank_cases u with hnil | ⟨l, hl, heq⟩
    · rw [hnil, show lowerStr [] = [] from rfl, containsSub_nil_of_ne hne] at hcll
      cases hcll
    · rw [heq] at hcll
      have hc1 : containsSub kw (lowerStr l) = true := by
        obtain ⟨a, b, hd, _, _⟩ := pyStrip_decomp l
        exact containsSubL_of_subseg hcll a b hd
      obtain ⟨a, b, hd⟩ := splitNl_line_subseg hl
      exact containsSubL_of_subseg hc1 a b hd
  · obtain ⟨_, i, e, hge⟩ := voteScanGo_shape hg
    have hc1 : containsSub kw (lowerStr g) = true := by
      obtain ⟨a, b, hd, _, _⟩ := pyStrip_decomp g
      exact containsSubL_of_subseg hcll a b hd
    subst hge
    have h2 : containsSub kw (lowerStr (u.drop i)) = true := by
      rw [show lowerStr ((u.drop i).take e) = (lowerStr (u.drop i)).take e by
        simp [lowerStr, List.map_take]] at hc1
      exact containsSub_take hc1
    rw [show lowerStr (u.drop i) = (lowerStr u).drop i by
      simp [lowerStr, List.map_drop]] at h2
    exact containsSub_drop h2
  · obtain ⟨_, i, e, hge⟩ := actionScanGo_shape hg
    have hc1 : containsSub kw (lowerStr g) = true := by
      obtain ⟨a, b, hd, _, _⟩ := pyStrip_decomp g
      exact containsSubL_of_subseg hcll a b hd
    subst hge
    have h2 : containsSub kw (lowerStr (u.drop i)) = true := by
      rw [show lowerStr ((u.drop i).take e) = (lowerStr (u.drop i)).take e by
        simp [lowerStr, List.map_take]] at hc1
      exact containsSub_take hc1
    rw [show lowerStr (u.drop i) = (lowerStr u).drop i by
      simp [lowerStr, List.map_drop]] at h2
    exact containsSub_drop h2

theorem sanitize_output_free {kw : Str} (hn : '\n' ∉ kw) (hsp : ' ' ∉ kw) (hne : kw ≠ [])
    (resp cur : Str) (names : List Str) (phase : Str)
    (h3 : containsSub kw (lowerStr (phaseCut phase
      (yrCut (otherLabelCut (names.filter (fun n => n ≠ cur)) resp)))) = false) :
    containsSub kw (lowerStr (sanitize_model_response resp cur names phase)) = false := by
  by_cases hr : resp = []
  · rw [hr, show sanitize_model_response [] cur names phase = [] by
      simp [sanitize_model_response]]
    exact containsSub_nil_of_ne hne
  · rw [sanitize_eq_assemble _ _ _ _ hr]
    unfold sanitizeCleaned
    cases hcc : containsSub kw (lowerStr (assembleStep6 (stripSelfLabel cur
        (step4 (phaseCut phase (yrCut (otherLabelCut
          (names.filter (fun n => n ≠ cur)) resp))))))) with
    | false => rfl
    | true =>
      have := rev_step4 hn hne (rev_stripSelfLabel (rev_assembleStep6 hn hsp hne hcc))
      rw [h3] at this
      cases this

theorem otherLabelCut_id {others : List Str} {L : Str} (hnl : '\n' ∉ L)
    (hm : labelLineMatch others L = false) : otherLabelCut others L = L := by
  unfold otherLabelCut
  dsimp only
  rw [splitNl_of_no_newline L hnl]
  have hidx : [L].findIdx? (labelLineMatch others) = none := by
    unfold List.findIdx?
    simp [hm]
  rw [hidx]

theorem yrCut_id {L : Str} (h : containsSub yrNeedle (lowerStr L) = false) :
    yrCut L = L := by
  unfold yrCut
  have hfo : findOccur yrNeedle (lowerStr L) = none := by
    have hs := findOccur_isSome yrNeedle (lowerStr L)
    rw [h] at hs
    cases hf : findOccur yrNeedle (lowerStr L) with
    | none => rfl
    | some i => rw [hf] at hs; cases hs
  rw [hfo]

theorem phaseCut_id_of_free {phase L : Str}
    (hdisc : lowerStr phase ∈ discussionPhases → ∀ kw ∈ kw5,
      containsSub kw (lowerStr L) = false)
    (hnight : lowerStr phase = "night".data →
      containsSub ("vote:".data) (lowerStr L) = false) :
    phaseCut phase L = L := by
  unfold phaseCut
  split_ifs with h1 h2
  · exact cutAtKw_id (hdisc h1)
  · refine cutAtKw_id ?_
    intro kw hkw
    have : kw = "vote:".data := by simpa using hkw
    subst this
    exact hnight h2
  · rfl

theorem step4_id {L : Str} (hst : pyStrip L = L) (hnl : '\n' ∉ L) : step4 L = L := by
  unfold step4
  dsimp only
  rw [hst, splitNl_of_no_newline L hnl]
  by_cases hL : L = []
  · subst hL
    rfl
  · have hblank : ¬ (pyStrip L = []) := by rw [hst]; exact hL
    rw [List.dropWhile_cons, if_neg (by simpa using hblank)]
    rw [show ([L] : List Str).reverse = [L] from rfl]
    rw [List.dropWhile_cons, if_neg (by simpa using hblank)]
    rw [show (([L] : List Str)).reverse = [L] from rfl]
    exact hst

theorem stripSelfLabel_id {cur L : Str} (hst : pyStrip L = L)
    (h4 : leadsWith (lowerStr cur ++ [':']) (lowerStr L) = false) :
    stripSelfLabel cur L = L := by
  unfold stripSelfLabel
  split
  · rfl
  · have hloop : labelLoop cur L = L := by
      unfold labelLoop
      cases hf : L.length with
      | zero => rfl
      | succ m =>
        unfold labelLoopF
        rw [if_neg (by rintro ⟨_, hcontra⟩; rw [h4] at hcontra; cases hcontra)]
    rw [hloop]
    calc stripLeft pySpace L = stripLeft pySpace (pyStrip L) := by rw [hst]
      _ = pyStrip L := stripLeft_pyStrip L
      _ = L := hst

theorem cmd_contained {L g : Str} (i e : Nat) (hge : g = (L.drop i).take e) :
    containsSub (lowerStr (pyStrip g)) (lowerStr L) = true := by
  subst hge
  have h0 : containsSub (lowerStr (pyStrip ((L.drop i).take e)))
      (lowerStr (pyStrip ((L.drop i).take e))) = true := containsSub_self _
  obtain ⟨a, b, hd, _, _⟩ := pyStrip_decomp ((L.drop i).take e)
  have h1 := containsSubL_of_subseg h0 a b hd
  have h2 := containsSubL_of_subseg h1 [] ((L.drop i).drop e)
    (by rw [List.nil_append, List.take_append_drop])
  have h3 := containsSubL_of_subseg h2 (L.take i) []
    (by rw [List.append_nil, List.take_append_drop])
  exact h3

theorem assembleStep6_id {L : Str} (hst : pyStrip L = L) (hnl : '\n' ∉ L)
    (hne : L ≠ []) : assembleStep6 L = L := by
  have hfl : firstNonBlank L = L := by
    unfold firstNonBlank
    rw [splitNl_of_no_newline L hnl]
    rw [List.find?_cons_of_pos _ (by simp [hst, hne])]
    exact hst
  have hsingle : pyStrip (joinSpace [L]) = L := by
    rw [show joinSpace [L] = L from rfl]
    exact hst
  unfold assembleStep6 step6Parts
  rw [hfl]
  cases hvm : findVoteCmdS L with
  | none =>
    cases ham : findActionCmdS L with
    | none =>
      dsimp only
      rw [if_neg hne]
      exact hsingle
    | some ga =>
      obtain ⟨_, i, e, hge⟩ := actionScanGo_shape ham
      dsimp only
      rw [if_pos (cmd_contained i e hge), if_neg hne]
      exact hsingle
  | some gv =>
    obtain ⟨_, iv, ev, hgv⟩ := voteScanGo_shape hvm
    cases ham : findActionCmdS L with
    | none =>
      dsimp only
      rw [if_pos (cmd_contained iv ev hgv), if_neg hne]
      exact hsingle
    | some ga =>
      obtain ⟨_, ia, ea, hga⟩ := actionScanGo_shape ham
      dsimp only
      rw [if_pos (cmd_contained ia ea hga), if_pos (cmd_contained iv ev hgv), if_neg hne]
      exact hsingle

/-! ## Claim C7: sanitizer idempotence -/

/-- C7 counterexample input: three occurrences of the marker phrase.  The
first pass keeps the text after the second occurrence's line, which still
contains a third occurrence; the second pass then deletes that line,
yielding the empty string. -/
def cxInput : Str := "your response\nyour response\nyour response hello".data

theorem sanitize_not_idempotent_counterexample :
    sanitize_model_response cxInput ("Alex".data) [] ("night".data) =
        ("your response hello".data) ∧
      sanitize_model_response
          (sanitize_model_response cxInput ("Alex".data) [] ("night".data))
          ("Alex".data) [] ("night".data) = [] ∧
      sanitize_model_response
          (sanitize_model_response cxInput ("Alex".data) [] ("night".data))
          ("Alex".data) [] ("night".data) ≠
        sanitize_model_response cxInput ("Alex".data) [] ("night".data) := by
  refine ⟨by decide, by decide, by decide⟩

theorem kw5_props : ∀ kw ∈ kw5, '\n' ∉ kw ∧ ' ' ∉ kw ∧ kw ≠ [] := by decide

/-- C7 amended: the sanitizer is idempotent on every input whose sanitized
output (i) contains no occurrence of "your response" case-insensitively,
(ii) does not start with another living player's name used as a `Name:`
label, (iii) contains no newline character, and (iv) does not start with the
speaker's own `Name:` label.  In general `sanitize(sanitize(x))` can differ
from `sanitize(x)` — see the counterexample. -/
theorem sanitize_idempotent_under_conditions
    (resp cur : Str) (names : List Str) (phase : Str)
    (h1 : containsSub yrNeedle
      (lowerStr (sanitize_model_response resp cur names phase)) = false)
    (h2 : labelLineMatch (names.filter (fun n => n ≠ cur))
      (sanitize_model_response resp cur names phase) = false)
    (h3 : '\n' ∉ sanitize_model_response resp cur names phase)
    (h4 : leadsWith (lowerStr cur ++ [':'])
      (lowerStr (sanitize_model_response resp cur names phase)) = false) :
    sanitize_model_response (sanitize_model_response resp cur names phase) cur names phase
      = sanitize_model_response resp cur names phase := by
  set L := sanitize_model_response resp cur names phase with hL
  by_cases hLe : L = []
  · rw [hLe]
    simp [sanitize_model_response]
  · have hr : resp ≠ [] := by
      intro hre
      apply hLe
      rw [hL, hre]
      simp [sanitize_model_response]
    have hst : pyStrip L = L := by
      rw [hL, sanitize_eq_assemble _ _ _ _ hr]
      unfold assembleStep6
      exact pyStrip_idem _
    have hdisc : lowerStr phase ∈ discussionPhases →
        ∀ kw ∈ kw5, containsSub kw (lowerStr L) = false := by
      intro hp kw hkw
      obtain ⟨hn, hsp, hne⟩ := kw5_props kw hkw
      rw [hL]
      apply sanitize_output_free hn hsp hne
      unfold phaseCut
      rw [if_pos hp]
      exact cutAtKw_free hkw hne
    have hnight : lowerStr phase = "night".data →
        containsSub ("vote:".data) (lowerStr L) = false := by
      intro hp
      rw [hL]
      apply @sanitize_output_free ("vote:".data) (by decide) (by decide) (by decide)
      unfold phaseCut
      by_cases hdisc2 : lowerStr phase ∈ discussionPhases
      · rw [hp] at hdisc2
        exact absurd hdisc2 (by decide)
      · rw [if_neg hdisc2, if_pos hp]
        exact cutAtKw_free (by simp) (by decide)
    rw [sanitize_eq_assemble L cur names phase hLe]
    unfold sanitizeCleaned
    rw [otherLabelCut_id h3 h2, yrCut_id h1, phaseCut_id_of_free hdisc hnight,
      step4_id hst h3, stripSelfLabel_id hst h4, assembleStep6_id hst h3 hLe]

/-- C7 witness input. -/
def wIn : Str := "hello world".data

theorem sanitize_idempotent_under_conditions_witness :
    sanitize_model_response
        (sanitize_model_response wIn ("Alex".data) ["Bailey".data] ("night".data))
        ("Alex".data) ["Bailey".data] ("night".data) =
      sanitize_model_response wIn ("Alex".data) ["Bailey".data] ("night".data) :=
  sanitize_idempotent_under_conditions wIn ("Alex".data) ["Bailey".data] ("night".data)
    (by decide) (by decide) (by decide) (by decide)

/-! ## Claim C9: single-line output -/

/-- C9 counterexample: `\s*` in the sanitizer's `VOTE:` regex spans a line
break, so the appended command itself contains a newline and the output has
two lines. -/
theorem sanitize_output_newline_counterexample :
    sanitize_model_response ("hello\nVOTE:\nBob".data) ("Alex".data) []
        ("day_voting".data) = ("hello VOTE:\nBob".data) ∧
      '\n' ∈ sanitize_model_response ("hello\nVOTE:\nBob".data) ("Alex".data) []
        ("day_voting".data) := by
  refine ⟨by decide, by decide⟩

theorem firstNonBlank_no_newline (s : Str) : '\n' ∉ firstNonBlank s := by
  rcases firstNonBlank_cases s with h | ⟨l, hl, heq⟩
  · rw [h]
    simp
  · rw [heq]
    intro hm
    exact mem_splitNl_no_newline s l hl (mem_pyStrip hm)

theorem mem_joinSpace {x : Char} {ls : List Str} (h : x ∈ joinSpace ls) :
    x = ' ' ∨ ∃ l ∈ ls, x ∈ l := by
  induction ls with
  | nil => cases h
  | cons l ls ih =>
    cases ls with
    | nil => exact Or.inr ⟨l, by simp, h⟩
    | cons l2 ls2 =>
      rw [show joinSpace (l :: l2 :: ls2) = l ++ ' ' :: joinSpace (l2 :: ls2) from rfl] at h
      rcases List.mem_append.mp h with h1 | h1
      · exact Or.inr ⟨l, by simp, h1⟩
      · rcases List.mem_cons.mp h1 with h2 | h2
        · exact Or.inl h2
        · rcases ih h2 with h3 | ⟨l3, hl3, hx⟩
          · exact Or.inl h3
          · exact Or.inr ⟨l3, List.mem_cons_of_mem _ hl3, hx⟩

/-- C9 amended: the sanitizer keeps the first non-blank line of the cleaned
text and appends the first `VOTE:` and `ACTION:` commands, joined by single
spaces; the first line never contains a newline, and the full output is a
single line *provided* each appended command is itself newline-free — which
can fail when the command regex's `\s*` crosses a line break (see the
counterexample). -/
theorem sanitize_single_line_when_commands_single_line
    (resp cur : Str) (names : List Str) (phase : Str)
    (hv : ∀ g, findVoteCmdS (sanitizeCleaned resp cur names phase) = some g →
      '\n' ∉ pyStrip g)
    (ha : ∀ g, findActionCmdS (sanitizeCleaned resp cur names phase) = some g →
      '\n' ∉ pyStrip g) :
    '\n' ∉ sanitize_model_response resp cur names phase := by
  by_cases hr : resp = []
  · rw [hr]
    simp [sanitize_model_response]
  · rw [sanitize_eq_assemble _ _ _ _ hr]
    intro hmem
    have hmem2 : '\n' ∈ joinSpace (step6Parts (sanitizeCleaned resp cur names phase)) :=
      mem_pyStrip hmem
    rcases mem_joinSpace hmem2 with hsp | ⟨part, hpart, hin⟩
    · exact absurd hsp (by decide)
    · rcases step6Parts_chars _ part hpart with hfl | ⟨g, hg, rfl⟩ | ⟨g, hg, rfl⟩
      · rw [hfl] at hin
        exact firstNonBlank_no_newline _ hin
      · exact hv g hg hin
      · exact ha g hg hin

/-- C9 witness input. -/
def wIn9 : Str := "hello VOTE: Bob".data

theorem sanitize_single_line_when_commands_single_line_witness :
    '\n' ∉ sanitize_model_response wIn9 ("Alex".data) [] ("day_voting".data) := by
  apply sanitize_single_line_when_commands_single_line
  · intro g hg
    rw [show findVoteCmdS (sanitizeCleaned wIn9 ("Alex".data) [] ("day_voting".data)) =
      some ("VOTE: Bob".data) by decide] at hg
    injection hg with h
    rw [← h]
    decide
  · intro g hg
    rw [show findActionCmdS (sanitizeCleaned wIn9 ("Alex".data) [] ("day_voting".data)) =
      none by decide] at hg
    cases hg
